import Mathlib

/-!
Verification of the greenery finite-state-machine library.

The Python sources are embedded shallowly:

* `src/greenery/fsm.py` — the DFA engine (`fsm` class, `crawl`, `null`,
  `epsilon`, the algebraic operations).
* `src/greenery/parse.py` — the recursive-descent regex parser.

Concrete symbols are modelled by natural numbers; the process-wide
`fsm.anything_else` sentinel is a dedicated constructor.  Python dicts are
modelled by association lists looked up first-match-first; a `dict`
indexing that can raise `KeyError` is modelled by an `Option`/`Except`
result.  Loops that Python runs unboundedly are given explicit fuel.
-/

set_option maxRecDepth 4000

namespace Greenery

/-- A symbol of an FSM alphabet: either a concrete value (modelled by a
natural number) or the process-wide sentinel `fsm.anything_else`. -/
inductive Sym : Type where
  | c (n : Nat) : Sym
  | anythingElse : Sym
deriving DecidableEq, Repr

/-- The sort key order from `fsm.key`: concrete symbols in their natural
order, with `anything_else` strictly last. -/
def symLeB : Sym → Sym → Bool
  | Sym.c a, Sym.c b => a ≤ b
  | Sym.c _, Sym.anythingElse => true
  | Sym.anythingElse, Sym.c _ => false
  | Sym.anythingElse, Sym.anythingElse => true

/-- Propositional form of `symLeB`. -/
def symLe (a b : Sym) : Prop := symLeB a b = true

instance : DecidableRel symLe := fun a b => by
  unfold symLe; infer_instance

instance : IsTotal Sym symLe where
  total a b := by
    cases a <;> cases b <;> simp [symLe, symLeB] <;> omega

instance : IsTrans Sym symLe where
  trans a b c := by
    cases a <;> cases b <;> cases c <;> simp [symLe, symLeB] <;> omega

instance : IsAntisymm Sym symLe where
  antisymm a b := by
    cases a <;> cases b <;> simp [symLe, symLeB] <;> omega

/-- `sorted(xs, key=fsm.key)`: sort symbols with `anything_else` last. -/
def sortSyms (xs : List Sym) : List Sym := List.insertionSort symLe xs

theorem sortSyms_sorted (xs : List Sym) : List.Sorted symLe (sortSyms xs) :=
  List.sorted_insertionSort symLe xs

theorem sortSyms_perm (xs : List Sym) : List.Perm (sortSyms xs) xs :=
  List.perm_insertionSort symLe xs

theorem sortSyms_mem {s : Sym} {xs : List Sym} : s ∈ sortSyms xs ↔ s ∈ xs :=
  (sortSyms_perm xs).mem_iff

/-- Two permutations of the same multiset of symbols sort identically:
the Python `sorted` builtin is deterministic in the set contents. -/
theorem sortSyms_eq_of_perm {xs ys : List Sym} (h : List.Perm xs ys) :
    sortSyms xs = sortSyms ys :=
  List.eq_of_perm_of_sorted ((sortSyms_perm xs).trans (h.trans (sortSyms_perm ys).symm))
    (sortSyms_sorted xs) (sortSyms_sorted ys)

/-- First-match association-list lookup, modelling Python dict indexing
(`d[k]`, with `none` playing the role of a `KeyError`). -/
def alookup {α β : Type} [DecidableEq α] : List (α × β) → α → Option β
  | [], _ => none
  | (k, v) :: rest, a => if k = a then some v else alookup rest a

theorem alookup_isSome_iff_mem {α β : Type} [DecidableEq α]
    (l : List (α × β)) (a : α) :
    (alookup l a).isSome = true ↔ a ∈ l.map Prod.fst := by
  induction l with
  | nil => simp [alookup]
  | cons p rest ih =>
    obtain ⟨k, v⟩ := p
    by_cases hk : k = a
    · subst hk; simp [alookup]
    · simp [alookup, hk, ih, Ne.symm hk]

theorem alookup_eq_none_iff_not_mem {α β : Type} [DecidableEq α]
    (l : List (α × β)) (a : α) :
    alookup l a = none ↔ a ∉ l.map Prod.fst := by
  rw [← alookup_isSome_iff_mem]
  cases alookup l a <;> simp

theorem alookup_mem {α β : Type} [DecidableEq α]
    {l : List (α × β)} {a : α} {b : β} (h : alookup l a = some b) : (a, b) ∈ l := by
  induction l with
  | nil => simp [alookup] at h
  | cons p rest ih =>
    obtain ⟨k, v⟩ := p
    by_cases hk : k = a
    · subst hk
      simp [alookup] at h
      simp [h]
    · simp [alookup, hk] at h
      exact List.mem_cons_of_mem _ (ih h)

theorem alookup_append_left {α β : Type} [DecidableEq α]
    {l : List (α × β)} (l2 : List (α × β)) {a : α} {b : β}
    (h : alookup l a = some b) : alookup (l ++ l2) a = some b := by
  induction l with
  | nil => simp [alookup] at h
  | cons p rest ih =>
    obtain ⟨k, v⟩ := p
    by_cases hk : k = a
    · subst hk; simp_all [alookup]
    · simp_all [alookup, hk]

theorem alookup_append_right {α β : Type} [DecidableEq α]
    {l : List (α × β)} (l2 : List (α × β)) {a : α}
    (h : alookup l a = none) : alookup (l ++ l2) a = alookup l2 a := by
  induction l with
  | nil => simp
  | cons p rest ih =>
    obtain ⟨k, v⟩ := p
    by_cases hk : k = a
    · subst hk; simp [alookup] at h
    · simp_all [alookup, hk]

/-- The `fsm` record from `fsm.py`: an alphabet, a set of states, an
initial state, a set of final states and a transition map
`state → (symbol → state)`.  The Python sets are modelled as lists with
membership semantics; the two-level dict as a two-level association
list. -/
structure Fsm (σ : Type) where
  alphabet : List Sym
  states : List σ
  initial : σ
  finals : List σ
  map : List (σ × List (Sym × σ))
deriving Repr, DecidableEq

variable {σ : Type} [DecidableEq σ]

/-- The effective-symbol substitution from `fsm.accepts`: when the
alphabet contains `anything_else`, any symbol outside the alphabet is
replaced by `anything_else`. -/
def effSym (alphabet : List Sym) (s : Sym) : Sym :=
  if Sym.anythingElse ∈ alphabet ∧ s ∉ alphabet then Sym.anythingElse else s

/-- The loop of `fsm.accepts`, started at an arbitrary state.  Returns
`none` when Python would raise a `KeyError` (the current state has no
entry in the map at all); returns `some false` on a missing transition;
on exhaustion of the input returns membership in `finals`. -/
def acceptsFrom (M : Fsm σ) : σ → List Sym → Option Bool
  | state, [] => some (decide (state ∈ M.finals))
  | state, symbol :: rest =>
    match alookup M.map state with
    | none => none
    | some row =>
      match alookup row (effSym M.alphabet symbol) with
      | none => some false
      | some t => acceptsFrom M t rest

/-- `fsm.accepts` from `fsm.py`. -/
def Fsm.accepts (M : Fsm σ) (input : List Sym) : Option Bool :=
  acceptsFrom M M.initial input

/-- The validating constructor `fsm.__init__`: checks that the initial
state is a state, the final states are states, and every transition
target is a state.  (Note: the code performs no check that transition
symbols belong to the alphabet.)  `none` models a raised exception. -/
def mkFsm (alphabet : List Sym) (states : List σ) (initial : σ)
    (finals : List σ) (map : List (σ × List (Sym × σ))) : Option (Fsm σ) :=
  if initial ∈ states ∧ (∀ f ∈ finals, f ∈ states) ∧
      (∀ p ∈ map, ∀ e ∈ p.2, e.2 ∈ states) then
    some ⟨alphabet, states, initial, finals, map⟩
  else none

/-- The partial transition function determined by the map, with missing
row and missing symbol both read as the implicit dead state.  (This is
the spec reading of the transition map from spec §3/§4.2.) -/
def deltaStar (M : Fsm σ) : σ → List Sym → Option σ
  | q, [] => some q
  | q, s :: rest =>
    match alookup M.map q with
    | none => none
    | some row =>
      match alookup row (effSym M.alphabet s) with
      | none => none
      | some t => deltaStar M t rest

/-- Acceptance as the spec describes it (§4.2): follow effective
symbols left to right; any missing transition rejects; accept iff the
state reached is final. -/
def acceptsSpec (M : Fsm σ) (w : List Sym) : Bool :=
  match deltaStar M M.initial w with
  | some q => decide (q ∈ M.finals)
  | none => false

theorem acceptsFrom_eq_deltaStar (M : Fsm σ)
    (hRows : ∀ q ∈ M.states, (alookup M.map q).isSome = true)
    (hTargets : ∀ p ∈ M.map, ∀ e ∈ p.2, e.2 ∈ M.states) :
    ∀ (w : List Sym) (q : σ), q ∈ M.states →
      acceptsFrom M q w =
        some (match deltaStar M q w with
              | some r => decide (r ∈ M.finals)
              | none => false) := by
  intro w
  induction w with
  | nil => intro q _; rfl
  | cons s rest ih =>
    intro q hq
    have hrow := hRows q hq
    obtain ⟨row, hrow⟩ : ∃ row, alookup M.map q = some row := by
      cases h : alookup M.map q
      · rw [h] at hrow; simp at hrow
      · exact ⟨_, rfl⟩
    simp only [acceptsFrom, deltaStar, hrow]
    cases ht : alookup row (effSym M.alphabet s) with
    | none => simp
    | some t =>
      have htmem : t ∈ M.states :=
        hTargets _ (alookup_mem hrow) _ (alookup_mem ht)
      exact ih t htmem

/-- Claim C1 (amended): for every DFA whose transition map has a row for
every state and whose transition targets are states, with a valid
initial state, `accepts` consumes the word left to right with the
ANY_ELSE substitution, returns false as soon as the current row lacks
the effective symbol, and otherwise accepts iff the final state reached
is in `finals` — i.e. it never raises and agrees with the spec-level
acceptance function. -/
theorem C1_accepts_follows_spec (M : Fsm σ)
    (hInit : M.initial ∈ M.states)
    (hRows : ∀ q ∈ M.states, (alookup M.map q).isSome = true)
    (hTargets : ∀ p ∈ M.map, ∀ e ∈ p.2, e.2 ∈ M.states)
    (w : List Sym) :
    M.accepts w = some (acceptsSpec M w) :=
  acceptsFrom_eq_deltaStar M hRows hTargets w M.initial hInit

/-- Witness for C1 on a concrete two-state machine accepting exactly
the single symbol 0. -/
theorem C1_accepts_follows_spec_witness :
    (Fsm.accepts (⟨[Sym.c 0, Sym.c 1], [0, 1], 0, [1],
        [(0, [(Sym.c 0, 1)]), (1, [])]⟩ : Fsm Nat) [Sym.c 0]
      = some (acceptsSpec (⟨[Sym.c 0, Sym.c 1], [0, 1], 0, [1],
        [(0, [(Sym.c 0, 1)]), (1, [])]⟩ : Fsm Nat) [Sym.c 0])) ∧
    acceptsSpec (⟨[Sym.c 0, Sym.c 1], [0, 1], 0, [1],
        [(0, [(Sym.c 0, 1)]), (1, [])]⟩ : Fsm Nat) [Sym.c 0] = true :=
  ⟨C1_accepts_follows_spec _ (by decide) (by decide) (by decide) _, by decide⟩

/-- Counterexample to C1 as stated: on a DFA whose map has no row for
the (initial) state, `accepts` raises a `KeyError` (modelled `none`)
instead of returning false. -/
theorem C1_counterexample :
    Fsm.accepts (⟨[Sym.c 0], [0], (0 : Nat), [0], []⟩ : Fsm Nat) [Sym.c 0] = none ∧
    Fsm.accepts (⟨[Sym.c 0], [0], (0 : Nat), [0], []⟩ : Fsm Nat) [Sym.c 0] ≠ some false := by
  decide

/-- Claim C5 (amended): DFA construction rejects exactly these
violations: initial state not a member of the state set, final states
not a subset of the state set, or a map target outside the state set.
Membership of map symbols in the alphabet is NOT validated. -/
theorem C5_construction_validation (alphabet : List Sym) (states : List σ)
    (initial : σ) (finals : List σ) (map : List (σ × List (Sym × σ))) :
    (mkFsm alphabet states initial finals map).isSome = true ↔
      (initial ∈ states ∧ (∀ f ∈ finals, f ∈ states) ∧
        (∀ p ∈ map, ∀ e ∈ p.2, e.2 ∈ states)) := by
  constructor
  · intro hs
    by_contra hc
    unfold mkFsm at hs
    rw [if_neg hc] at hs
    simp at hs
  · intro hc
    unfold mkFsm
    rw [if_pos hc]
    rfl

/-- Counterexample to C5 as stated: a map entry whose symbol is not in
the alphabet is accepted by the constructor, although the claim says
construction raises for it. -/
theorem C5_counterexample :
    (mkFsm ([] : List Sym) [0] (0 : Nat) [] [(0, [(Sym.c 5, 0)])]).isSome = true ∧
    Sym.c 5 ∉ ([] : List Sym) := by
  decide

/-- Errors raised by the crawl-based operations.  `fuelOut` is an
embedding artifact marking exhaustion of loop fuel; the others model
Python exceptions. -/
inductive Err : Type where
  | fuelOut : Err
  | keyErr : Err
  | invalid : Err
  | alphaDiff : Err
  | negative : Err
deriving DecidableEq, Repr

instance exceptDecEq {ε α : Type} [DecidableEq ε] [DecidableEq α] :
    DecidableEq (Except ε α) := fun a b =>
  match a, b with
  | .error e1, .error e2 =>
    if h : e1 = e2 then isTrue (by rw [h])
    else isFalse (by intro hc; cases hc; exact h rfl)
  | .error _, .ok _ => isFalse (by intro hc; cases hc)
  | .ok _, .error _ => isFalse (by intro hc; cases hc)
  | .ok v1, .ok v2 =>
    if h : v1 = v2 then isTrue (by rw [h])
    else isFalse (by intro hc; cases hc; exact h rfl)

/-- `list.index(x)` returning `none` instead of raising `ValueError`. -/
def indexOfD {μ : Type} [DecidableEq μ] : List μ → μ → Option Nat
  | [], _ => none
  | x :: rest, a => if x = a then some 0 else (indexOfD rest a).map (· + 1)

theorem indexOfD_eq_some {μ : Type} [DecidableEq μ] :
    ∀ (l : List μ) (a : μ) (j : Nat), indexOfD l a = some j →
      ∃ (hj : j < l.length), l.get ⟨j, hj⟩ = a := by
  intro l
  induction l with
  | nil => intro a j h; simp [indexOfD] at h
  | cons x rest ih =>
    intro a j h
    by_cases hx : x = a
    · subst hx
      simp [indexOfD] at h
      subst h
      exact ⟨by simp, rfl⟩
    · simp [indexOfD, hx] at h
      obtain ⟨j2, hj2, rfl⟩ := h
      obtain ⟨hlt, hget⟩ := ih a j2 hj2
      exact ⟨by simp; omega, hget⟩

theorem indexOfD_eq_none {μ : Type} [DecidableEq μ] :
    ∀ (l : List μ) (a : μ), indexOfD l a = none ↔ a ∉ l := by
  intro l
  induction l with
  | nil => intro a; simp [indexOfD]
  | cons x rest ih =>
    intro a
    by_cases hx : x = a
    · subst hx; simp [indexOfD]
    · simp [indexOfD, hx, ih, Ne.symm hx]

theorem get_append_ext {μ : Type} (l ext : List μ) (k : Nat) (hk : k < l.length)
    (hk2 : k < (l ++ ext).length) : (l ++ ext).get ⟨k, hk2⟩ = l.get ⟨k, hk⟩ := by
  simp only [List.get_eq_getElem]
  exact List.getElem_append_left hk

/-- The inner symbol loop of `crawl`: for each symbol compute
`follow(state, symbol)`, find it in the growing state list (appending
if new), and record the index.  The follow function may raise
(`Except.error`), modelling the Python exceptions that `crawl`
propagates. -/
def crawlRow {μ : Type} [DecidableEq μ] (fol : μ → Sym → Except Err μ) (st : μ) :
    List Sym → List μ → Except Err (List μ × List (Sym × Nat))
  | [], states => .ok (states, [])
  | s :: ss, states =>
    match fol st s with
    | .error e => .error e
    | .ok nxt =>
      match indexOfD states nxt with
      | some j =>
        match crawlRow fol st ss states with
        | .error e => .error e
        | .ok (sts, row) => .ok (sts, (s, j) :: row)
      | none =>
        match crawlRow fol st ss (states ++ [nxt]) with
        | .error e => .error e
        | .ok (sts, row) => .ok (sts, (s, states.length) :: row)

/-- The growing-list loop of `crawl`, with explicit fuel. -/
def crawlLoop {μ : Type} [DecidableEq μ] (alphaS : List Sym) (fin : μ → Bool)
    (fol : μ → Sym → Except Err μ) :
    Nat → Nat → List μ → List Nat → List (Nat × List (Sym × Nat)) →
      Except Err (List μ × List Nat × List (Nat × List (Sym × Nat)))
  | 0, _, _, _, _ => .error .fuelOut
  | fuel + 1, i, states, finalsAcc, mapAcc =>
    if h : i < states.length then
      let st := states.get ⟨i, h⟩
      match crawlRow fol st alphaS states with
      | .error e => .error e
      | .ok (states2, row) =>
        crawlLoop alphaS fin fol fuel (i + 1) states2
          (if fin st then finalsAcc ++ [i] else finalsAcc) (mapAcc ++ [(i, row)])
    else .ok (states, finalsAcc, mapAcc)

/-- `crawl` from `fsm.py`: run the loop starting from the single
initial meta-state, then build the resulting FSM through the validating
constructor. -/
def crawlFuel {μ : Type} [DecidableEq μ] (fuel : Nat) (alpha : List Sym) (init : μ)
    (fin : μ → Bool) (fol : μ → Sym → Except Err μ) : Except Err (Fsm Nat) :=
  match crawlLoop (sortSyms alpha) fin fol fuel 0 [init] [] [] with
  | .error e => .error e
  | .ok (states, finals, mp) =>
    match mkFsm alpha (List.range states.length) 0 finals mp with
    | some F => .ok F
    | none => .error .invalid

theorem crawlRow_ok {μ : Type} [DecidableEq μ] (fol : μ → Sym → Except Err μ) (st : μ) :
    ∀ (syms : List Sym) (states states2 : List μ) (row : List (Sym × Nat)),
      crawlRow fol st syms states = .ok (states2, row) →
      (∃ ext, states2 = states ++ ext) ∧
      row.map Prod.fst = syms ∧
      (∀ s j, (s, j) ∈ row → ∃ (hj : j < states2.length),
        fol st s = .ok (states2.get ⟨j, hj⟩)) := by
  intro syms
  induction syms with
  | nil =>
    intro states states2 row h
    simp only [crawlRow] at h
    cases h
    exact ⟨⟨[], by simp⟩, rfl, by simp⟩
  | cons s ss ih =>
    intro states states2 row h
    simp only [crawlRow] at h
    cases hfol : fol st s with
    | error e => rw [hfol] at h; cases h
    | ok nxt =>
      rw [hfol] at h
      dsimp only at h
      cases hidx : indexOfD states nxt with
      | some j =>
        rw [hidx] at h
        dsimp only at h
        cases hrec : crawlRow fol st ss states with
        | error e => rw [hrec] at h; cases h
        | ok p =>
          obtain ⟨sts, row2⟩ := p
          rw [hrec] at h
          dsimp only at h
          cases h
          obtain ⟨⟨ext, hext⟩, hkeys, hentries⟩ := ih states states2 row2 hrec
          subst hext
          refine ⟨⟨ext, rfl⟩, by simp [hkeys], ?_⟩
          intro s2 j2 hmem
          rcases List.mem_cons.mp hmem with heq | hmem2
          · cases heq
            obtain ⟨hjlt, hget⟩ := indexOfD_eq_some states nxt j hidx
            have hjlt2 : j < (states ++ ext).length := by simp; omega
            refine ⟨hjlt2, ?_⟩
            rw [get_append_ext states ext j hjlt, hget]
            exact hfol
          · exact hentries s2 j2 hmem2
      | none =>
        rw [hidx] at h
        dsimp only at h
        cases hrec : crawlRow fol st ss (states ++ [nxt]) with
        | error e => rw [hrec] at h; cases h
        | ok p =>
          obtain ⟨sts, row2⟩ := p
          rw [hrec] at h
          dsimp only at h
          cases h
          obtain ⟨⟨ext, hext⟩, hkeys, hentries⟩ := ih (states ++ [nxt]) states2 row2 hrec
          subst hext
          refine ⟨⟨[nxt] ++ ext, by simp⟩, by simp [hkeys], ?_⟩
          intro s2 j2 hmem
          rcases List.mem_cons.mp hmem with heq | hmem2
          · cases heq
            have hlt1 : states.length < (states ++ [nxt]).length := by simp
            have hjlt2 : states.length < (states ++ [nxt] ++ ext).length := by simp
            refine ⟨hjlt2, ?_⟩
            rw [get_append_ext (states ++ [nxt]) ext states.length hlt1]
            have hnxt : (states ++ [nxt]).get ⟨states.length, hlt1⟩ = nxt := by
              simp only [List.get_eq_getElem]
              simp
            rw [hnxt]
            exact hfol
          · exact hentries s2 j2 hmem2

/-- Loop invariant of `crawl`: after processing meta-states `0..i-1`,
the accumulated map has exactly those keys, each processed row
enumerates the sorted alphabet with correct follow indices, and the
finals accumulator holds exactly the processed final meta-states. -/
structure CrawlInv {μ : Type} [DecidableEq μ] (alphaS : List Sym) (fin : μ → Bool)
    (fol : μ → Sym → Except Err μ) (i : Nat) (states : List μ) (finals : List Nat)
    (mapAcc : List (Nat × List (Sym × Nat))) : Prop where
  hile : i ≤ states.length
  hkeys : mapAcc.map Prod.fst = List.range i
  hrows : ∀ k, k < i → ∃ row, alookup mapAcc k = some row ∧
    row.map Prod.fst = alphaS ∧
    ∀ s j, (s, j) ∈ row → ∃ (hk : k < states.length) (hj : j < states.length),
      fol (states.get ⟨k, hk⟩) s = .ok (states.get ⟨j, hj⟩)
  hfins : ∀ k, k ∈ finals ↔
    ∃ (hk : k < states.length), k < i ∧ fin (states.get ⟨k, hk⟩) = true

theorem crawlInv_extend {μ : Type} [DecidableEq μ] {alphaS : List Sym} {fin : μ → Bool}
    {fol : μ → Sym → Except Err μ} {i : Nat} {states : List μ} {finals : List Nat}
    {mapAcc : List (Nat × List (Sym × Nat))}
    (inv : CrawlInv alphaS fin fol i states finals mapAcc) (ext : List μ) :
    CrawlInv alphaS fin fol i (states ++ ext) finals mapAcc := by
  have hle := inv.hile
  refine ⟨by simp; omega, inv.hkeys, ?_, ?_⟩
  · intro k hk
    obtain ⟨row, hl, hks, hent⟩ := inv.hrows k hk
    refine ⟨row, hl, hks, ?_⟩
    intro s j hmem
    obtain ⟨hk1, hj1, hfol⟩ := hent s j hmem
    refine ⟨by simp; omega, by simp; omega, ?_⟩
    rw [get_append_ext states ext k hk1, get_append_ext states ext j hj1]
    exact hfol
  · intro k
    rw [inv.hfins k]
    constructor
    · rintro ⟨hk, hki, hfin⟩
      refine ⟨by simp; omega, hki, ?_⟩
      rw [get_append_ext states ext k hk]
      exact hfin
    · rintro ⟨hk, hki, hfin⟩
      have hk1 : k < states.length := by omega
      refine ⟨hk1, hki, ?_⟩
      rw [get_append_ext states ext k hk1] at hfin
      exact hfin

theorem crawlLoop_ok {μ : Type} [DecidableEq μ] (alphaS : List Sym) (fin : μ → Bool)
    (fol : μ → Sym → Except Err μ) :
    ∀ (fuel i : Nat) (states : List μ) (finals : List Nat)
      (mapAcc : List (Nat × List (Sym × Nat)))
      (S : List μ) (F : List Nat) (Mp : List (Nat × List (Sym × Nat))),
      crawlLoop alphaS fin fol fuel i states finals mapAcc = .ok (S, F, Mp) →
      CrawlInv alphaS fin fol i states finals mapAcc →
      CrawlInv alphaS fin fol S.length S F Mp ∧ (∃ ext, S = states ++ ext) := by
  intro fuel
  induction fuel with
  | zero =>
    intro i states finals mapAcc S F Mp h
    simp [crawlLoop] at h
  | succ fuel ih =>
    intro i states finals mapAcc S F Mp h inv
    rw [crawlLoop] at h
    by_cases hi : i < states.length
    · rw [dif_pos hi] at h
      dsimp only at h
      cases hrow : crawlRow fol (states.get ⟨i, hi⟩) alphaS states with
      | error e => rw [hrow] at h; cases h
      | ok p =>
        obtain ⟨states2, row⟩ := p
        rw [hrow] at h
        dsimp only at h
        obtain ⟨⟨ext, hext⟩, hkeys, hent⟩ :=
          crawlRow_ok fol (states.get ⟨i, hi⟩) alphaS states states2 row hrow
        subst hext
        have hinv2 : CrawlInv alphaS fin fol (i + 1) (states ++ ext)
            (if fin (states.get ⟨i, hi⟩) then finals ++ [i] else finals)
            (mapAcc ++ [(i, row)]) := by
          have hget_i : ∀ (hk : i < (states ++ ext).length),
              (states ++ ext).get ⟨i, hk⟩ = states.get ⟨i, hi⟩ := by
            intro hk
            exact get_append_ext states ext i hi hk
          have hinvx := crawlInv_extend inv ext
          refine ⟨by simp; omega, by simp [hinvx.hkeys, List.range_succ], ?_, ?_⟩
          · intro k hk
            by_cases hki : k < i
            · obtain ⟨rowk, hl, hks, hentk⟩ := hinvx.hrows k hki
              exact ⟨rowk, alookup_append_left _ hl, hks, hentk⟩
            · have hkeq : k = i := by omega
              subst hkeq
              have hnone : alookup mapAcc k = none := by
                rw [alookup_eq_none_iff_not_mem, hinvx.hkeys]
                simp
              refine ⟨row, ?_, hkeys, ?_⟩
              · rw [alookup_append_right _ hnone]
                simp [alookup]
              · intro s j hmem
                obtain ⟨hj, hfol⟩ := hent s j hmem
                refine ⟨by simp; omega, hj, ?_⟩
                rw [hget_i]
                exact hfol
          · intro k
            by_cases hfi : fin (states.get ⟨i, hi⟩) = true
            · rw [if_pos hfi]
              constructor
              · intro hmem
                rcases List.mem_append.mp hmem with hmem1 | hmem1
                · obtain ⟨hk, hki, hf⟩ := (hinvx.hfins k).mp hmem1
                  exact ⟨hk, by omega, hf⟩
                · have hkeq : k = i := by simpa using hmem1
                  subst hkeq
                  refine ⟨by simp; omega, by omega, ?_⟩
                  rw [hget_i]
                  exact hfi
              · rintro ⟨hk, hki, hf⟩
                by_cases hlt : k < i
                · exact List.mem_append.mpr (Or.inl ((hinvx.hfins k).mpr ⟨hk, hlt, hf⟩))
                · have hkeq : k = i := by omega
                  subst hkeq
                  simp
            · rw [if_neg hfi]
              rw [hinvx.hfins k]
              constructor
              · rintro ⟨hk, hki, hf⟩
                exact ⟨hk, by omega, hf⟩
              · rintro ⟨hk, hki, hf⟩
                by_cases hlt : k < i
                · exact ⟨hk, hlt, hf⟩
                · have hkeq : k = i := by omega
                  subst hkeq
                  rw [hget_i] at hf
                  exact absurd hf hfi
        obtain ⟨hpost, ⟨ext2, hext2⟩⟩ := ih (i + 1) (states ++ ext) _ _ S F Mp h hinv2
        exact ⟨hpost, ⟨ext ++ ext2, by rw [hext2]; simp⟩⟩
    · rw [dif_neg hi] at h
      cases h
      have hieq : i = states.length := by
        have := inv.hile
        omega
      subst hieq
      exact ⟨inv, ⟨[], by simp⟩⟩

theorem crawlInv_init {μ : Type} [DecidableEq μ] (alphaS : List Sym) (fin : μ → Bool)
    (fol : μ → Sym → Except Err μ) (init : μ) :
    CrawlInv alphaS fin fol 0 [init] [] [] := by
  refine ⟨by simp, rfl, ?_, ?_⟩
  · intro k hk; omega
  · intro k; simp

theorem mkFsm_eq_some {alphabet : List Sym} {states : List σ} {initial : σ}
    {finals : List σ} {map : List (σ × List (Sym × σ))} {F : Fsm σ}
    (h : mkFsm alphabet states initial finals map = some F) :
    F = ⟨alphabet, states, initial, finals, map⟩ := by
  unfold mkFsm at h
  split at h
  · cases h; rfl
  · cases h

/-- The summary of a crawl run that later claims rely on: the complete
invariant at the final index together with the concrete shape of the
constructed FSM. -/
theorem crawlFuel_ok {μ : Type} [DecidableEq μ] {fuel : Nat} {alpha : List Sym}
    {init : μ} {fin : μ → Bool} {fol : μ → Sym → Except Err μ} {F : Fsm Nat}
    (h : crawlFuel fuel alpha init fin fol = .ok F) :
    ∃ (S : List μ),
      F = ⟨alpha, List.range S.length, 0, F.finals, F.map⟩ ∧
      (∃ ext, S = [init] ++ ext) ∧
      CrawlInv (sortSyms alpha) fin fol S.length S F.finals F.map := by
  unfold crawlFuel at h
  cases hloop : crawlLoop (sortSyms alpha) fin fol fuel 0 [init] [] [] with
  | error e => rw [hloop] at h; cases h
  | ok p =>
    obtain ⟨S, Fi, Mp⟩ := p
    rw [hloop] at h
    dsimp only at h
    cases hmk : mkFsm alpha (List.range S.length) 0 Fi Mp with
    | none => rw [hmk] at h; cases h
    | some F2 =>
      rw [hmk] at h
      cases h
      have hF := mkFsm_eq_some hmk
      obtain ⟨hpost, hext⟩ :=
        crawlLoop_ok (sortSyms alpha) fin fol fuel 0 [init] [] [] S Fi Mp hloop
          (crawlInv_init (sortSyms alpha) fin fol init)
      refine ⟨S, ?_, hext, ?_⟩
      · rw [hF]
      · rw [hF]
        exact hpost

/-- Claim C3: whenever the crawl terminates, the resulting DFA has
state set exactly `{0, …, N-1}` for some `N ≥ 1`, its initial state is
`0`, and its transition map is total: every crawled state has an entry
for every symbol of the alphabet. -/
theorem C3_crawl_states_and_totality {μ : Type} [DecidableEq μ] (fuel : Nat)
    (alpha : List Sym) (init : μ) (fin : μ → Bool) (fol : μ → Sym → Except Err μ)
    (F : Fsm Nat) (h : crawlFuel fuel alpha init fin fol = .ok F) :
    F.initial = 0 ∧ 0 < F.states.length ∧ F.states = List.range F.states.length ∧
    ∀ k, k < F.states.length → ∃ row, alookup F.map k = some row ∧
      ∀ s ∈ alpha, (alookup row s).isSome = true := by
  obtain ⟨S, hF, ⟨ext, hext⟩, hpost⟩ := crawlFuel_ok h
  have hlen : F.states.length = S.length := by
    rw [hF]; simp
  refine ⟨by rw [hF], ?_, ?_, ?_⟩
  · rw [hlen, hext]; simp
  · rw [hF]; simp
  · intro k hk
    rw [hlen] at hk
    obtain ⟨row, hl, hks, _⟩ := hpost.hrows k hk
    refine ⟨row, hl, ?_⟩
    intro s hs
    rw [alookup_isSome_iff_mem, hks, sortSyms_mem]
    exact hs

/-- Witness for C3 on a one-state crawl over a one-symbol alphabet. -/
theorem C3_crawl_states_and_totality_witness :
    crawlFuel 3 [Sym.c 0] (0 : Nat) (fun _ => true) (fun m _ => .ok m) =
      .ok ⟨[Sym.c 0], [0], 0, [0], [(0, [(Sym.c 0, 0)])]⟩ ∧
    ((⟨[Sym.c 0], [0], 0, [0], [(0, [(Sym.c 0, 0)])]⟩ : Fsm Nat).initial = 0 ∧
      0 < (⟨[Sym.c 0], [0], 0, [0], [(0, [(Sym.c 0, 0)])]⟩ : Fsm Nat).states.length ∧
      (⟨[Sym.c 0], [0], 0, [0], [(0, [(Sym.c 0, 0)])]⟩ : Fsm Nat).states =
        List.range (⟨[Sym.c 0], [0], 0, [0],
          [(0, [(Sym.c 0, 0)])]⟩ : Fsm Nat).states.length ∧
      ∀ k, k < (⟨[Sym.c 0], [0], 0, [0], [(0, [(Sym.c 0, 0)])]⟩ : Fsm Nat).states.length →
        ∃ row, alookup (⟨[Sym.c 0], [0], 0, [0],
            [(0, [(Sym.c 0, 0)])]⟩ : Fsm Nat).map k = some row ∧
          ∀ s ∈ [Sym.c 0], (alookup row s).isSome = true) :=
  ⟨by decide,
    C3_crawl_states_and_totality 3 [Sym.c 0] 0 (fun _ => true) (fun m _ => .ok m) _
      (by decide)⟩

/-- The components of an FSM other than its alphabet. -/
def Fsm.core (F : Fsm σ) : List σ × σ × List σ × List (σ × List (Sym × σ)) :=
  (F.states, F.initial, F.finals, F.map)

/-- Claim C6: the crawl driver — and hence every algebraic operation
built on it — is deterministic: two runs on the same inputs, with the
alphabet set presented in any two enumeration orders, produce the
identical state numbering, transition table and final-state set. -/
theorem C6_crawl_deterministic {μ : Type} [DecidableEq μ] (fuel : Nat)
    (a1 a2 : List Sym) (init : μ) (fin : μ → Bool) (fol : μ → Sym → Except Err μ)
    (hperm : List.Perm a1 a2) :
    Except.map Fsm.core (crawlFuel fuel a1 init fin fol) =
      Except.map Fsm.core (crawlFuel fuel a2 init fin fol) := by
  unfold crawlFuel
  rw [sortSyms_eq_of_perm hperm]
  cases crawlLoop (sortSyms a2) fin fol fuel 0 [init] [] [] with
  | error e => rfl
  | ok p =>
    obtain ⟨S, Fi, Mp⟩ := p
    dsimp only
    unfold mkFsm
    by_cases hC : 0 ∈ List.range S.length ∧ (∀ f ∈ Fi, f ∈ List.range S.length) ∧
        ∀ p ∈ Mp, ∀ e ∈ p.2, e.2 ∈ List.range S.length
    · rw [if_pos hC, if_pos hC]; rfl
    · rw [if_neg hC, if_neg hC]

/-- Raw one-step transition lookup `self.map[q][s]`, with no
effective-symbol substitution; `none` when either dict lookup fails. -/
def deltaRaw (M : Fsm σ) (q : σ) (s : Sym) : Option σ :=
  match alookup M.map q with
  | none => none
  | some row => alookup row s

/-- Multi-step raw transition along a word. -/
def trekRaw (M : Fsm σ) : σ → List Sym → Option σ
  | q, [] => some q
  | q, s :: rest =>
    match deltaRaw M q s with
    | none => none
    | some t => trekRaw M t rest

/-- Raw acceptance from a given state: the raw trek completes and ends
in a final state. -/
def acceptsRawB (M : Fsm σ) (q : σ) (ws : List Sym) : Bool :=
  match trekRaw M q ws with
  | some r => decide (r ∈ M.finals)
  | none => false

/-- The word of effective symbols that `accepts` actually looks up. -/
def effW (alphabet : List Sym) (w : List Sym) : List Sym :=
  w.map (effSym alphabet)

theorem trekRaw_append (M : Fsm σ) :
    ∀ (u v : List Sym) (p : σ),
      trekRaw M p (u ++ v) =
        match trekRaw M p u with
        | some q => trekRaw M q v
        | none => none := by
  intro u
  induction u with
  | nil => intro v p; rfl
  | cons s rest ih =>
    intro v p
    simp only [List.cons_append, trekRaw]
    cases deltaRaw M p s with
    | none => rfl
    | some t => exact ih v t

/-- The predecessor function of `fsm.__reversed__`: every state in the
map whose transition on `s` lands inside the current state-set. -/
def revFollow (M : Fsm σ) (cur : Finset σ) (s : Sym) : Finset σ :=
  ((M.map.map Prod.fst).filter (fun p =>
    match deltaRaw M p s with
    | some t => decide (t ∈ cur)
    | none => false)).toFinset

theorem mem_revFollow (M : Fsm σ) (cur : Finset σ) (s : Sym) (p : σ) :
    p ∈ revFollow M cur s ↔
      (match deltaRaw M p s with
       | some t => t ∈ cur
       | none => False) := by
  unfold revFollow
  rw [List.mem_toFinset, List.mem_filter]
  cases hd : deltaRaw M p s with
  | none => simp
  | some t =>
    simp only [decide_eq_true_eq]
    constructor
    · rintro ⟨_, ht⟩; exact ht
    · intro ht
      refine ⟨?_, ht⟩
      unfold deltaRaw at hd
      cases hrow : alookup M.map p with
      | none => rw [hrow] at hd; cases hd
      | some row =>
        rw [← alookup_isSome_iff_mem, hrow]
        rfl

theorem mem_foldl_revFollow (M : Fsm σ) :
    ∀ (ws : List Sym) (cur : Finset σ) (p : σ),
      p ∈ List.foldl (revFollow M) cur ws ↔
        (match trekRaw M p ws.reverse with
         | some q => q ∈ cur
         | none => False) := by
  intro ws
  induction ws with
  | nil => intro cur p; simp [trekRaw]
  | cons s rest ih =>
    intro cur p
    simp only [List.foldl_cons, List.reverse_cons]
    rw [ih (revFollow M cur s) p, trekRaw_append]
    cases ht : trekRaw M p rest.reverse with
    | none => simp
    | some q =>
      simp only
      rw [mem_revFollow]
      cases hd : deltaRaw M q s with
      | none => simp [trekRaw, hd]
      | some t => simp [trekRaw, hd]

theorem acceptsRawB_cons (M : Fsm σ) (q : σ) (s : Sym) (rest : List Sym) (t : σ)
    (h : deltaRaw M q s = some t) :
    acceptsRawB M q (s :: rest) = acceptsRawB M t rest := by
  simp [acceptsRawB, trekRaw, h]

/-- Semantics of a terminated crawl whose follow function is total:
(A) `accepts` on the produced DFA checks that every effective symbol is
in the alphabet and applies the finality test to the fold of the follow
function over the effective word; (B) for words made of alphabet
symbols, raw acceptance from the initial state computes the same
fold. -/
theorem crawl_sem {μ : Type} [DecidableEq μ] {fuel : Nat} {alpha : List Sym}
    {init : μ} {fin : μ → Bool} {f : μ → Sym → μ} {F : Fsm Nat}
    (h : crawlFuel fuel alpha init fin (fun m s => .ok (f m s)) = .ok F) :
    (∀ w : List Sym, F.accepts w =
      some (((effW alpha w).all (fun s => decide (s ∈ alpha))) &&
        fin (List.foldl f init (effW alpha w)))) ∧
    (∀ v : List Sym, v.all (fun s => decide (s ∈ alpha)) = true →
      acceptsRawB F F.initial v = fin (List.foldl f init v)) := by
  obtain ⟨S, hF, ⟨ext, hext⟩, hpost⟩ := crawlFuel_ok h
  subst hext
  set S := [init] ++ ext with hS
  have halpha : F.alphabet = alpha := by rw [hF]
  have hinit : F.initial = 0 := by rw [hF]
  have h0 : 0 < S.length := by rw [hS]; simp
  have hget0 : S.get ⟨0, h0⟩ = init := rfl
  have hfinals : ∀ (k : Nat) (hk : k < S.length),
      decide (k ∈ F.finals) = fin (S.get ⟨k, hk⟩) := by
    intro k hk
    cases hfi : fin (S.get ⟨k, hk⟩) with
    | false =>
      simp only [decide_eq_false_iff_not]
      intro hmem
      obtain ⟨hk2, _, hf⟩ := (hpost.hfins k).mp hmem
      rw [show (⟨k, hk2⟩ : Fin S.length) = ⟨k, hk⟩ from rfl] at hf
      rw [hf] at hfi
      cases hfi
    | true =>
      simp [(hpost.hfins k).mpr ⟨hk, hk, hfi⟩]
  have hstep : ∀ (k : Nat) (hk : k < S.length) (s : Sym), s ∈ alpha →
      ∃ (row : List (Sym × Nat)) (j : Nat) (hj : j < S.length),
        alookup F.map k = some row ∧ alookup row s = some j ∧
        f (S.get ⟨k, hk⟩) s = S.get ⟨j, hj⟩ := by
    intro k hk s hs
    obtain ⟨row, hrowk, hkeys, hent⟩ := hpost.hrows k hk
    have hsome : (alookup row s).isSome = true := by
      rw [alookup_isSome_iff_mem, hkeys, sortSyms_mem]
      exact hs
    obtain ⟨j, hj⟩ : ∃ j, alookup row s = some j := by
      cases hl : alookup row s
      · rw [hl] at hsome; cases hsome
      · exact ⟨_, rfl⟩
    obtain ⟨hk2, hj2, hfol⟩ := hent s j (alookup_mem hj)
    have hfeq : f (S.get ⟨k, hk2⟩) s = S.get ⟨j, hj2⟩ := by
      have := hfol
      injection this
    exact ⟨row, j, hj2, hrowk, hj,
      by rw [show (⟨k, hk⟩ : Fin S.length) = ⟨k, hk2⟩ from rfl]; exact hfeq⟩
  constructor
  · -- part A
    have hA : ∀ (w : List Sym) (k : Nat) (hk : k < S.length),
        acceptsFrom F k w =
          some (((effW alpha w).all (fun s => decide (s ∈ alpha))) &&
            fin (List.foldl f (S.get ⟨k, hk⟩) (effW alpha w))) := by
      intro w
      induction w with
      | nil =>
        intro k hk
        simp only [acceptsFrom, effW, List.map_nil, List.all_nil, List.foldl_nil,
          Bool.true_and]
        rw [hfinals k hk]
      | cons s rest ih =>
        intro k hk
        by_cases hmem : effSym alpha s ∈ alpha
        · obtain ⟨row, j, hj, hrowk, hlk, hfeq⟩ := hstep k hk _ hmem
          simp only [acceptsFrom, halpha, hrowk, hlk]
          rw [ih j hj]
          simp only [effW, List.map_cons, List.all_cons, List.foldl_cons, hfeq]
          simp [hmem]
        · obtain ⟨row, hrowk, hkeys, _⟩ := hpost.hrows k hk
          have hnone : alookup row (effSym alpha s) = none := by
            rw [alookup_eq_none_iff_not_mem, hkeys, sortSyms_mem]
            exact hmem
          simp only [acceptsFrom, halpha, hrowk, hnone]
          simp [effW, hmem]
    intro w
    rw [Fsm.accepts, hinit, hA w 0 h0, hget0]
  · -- part B
    have hB : ∀ (v : List Sym) (k : Nat) (hk : k < S.length),
        v.all (fun s => decide (s ∈ alpha)) = true →
          acceptsRawB F k v = fin (List.foldl f (S.get ⟨k, hk⟩) v) := by
      intro v
      induction v with
      | nil =>
        intro k hk _
        simp only [acceptsRawB, trekRaw, List.foldl_nil]
        rw [hfinals k hk]
      | cons s rest ih =>
        intro k hk hall
        simp only [List.all_cons, Bool.and_eq_true, decide_eq_true_eq] at hall
        obtain ⟨hs, hrest⟩ := hall
        obtain ⟨row, j, hj, hrowk, hlk, hfeq⟩ := hstep k hk s hs
        have hd : deltaRaw F k s = some j := by simp [deltaRaw, hrowk, hlk]
        rw [acceptsRawB_cons F k s rest j hd]
        rw [ih j hj hrest]
        simp only [List.foldl_cons]
        rw [hfeq]
    intro v hall
    rw [hinit, hB v 0 h0 hall, hget0]

/-- `fsm.__reversed__`: crawl from the set of final states through the
predecessor relation; a composite state is final iff it contains the
original initial state.  The result is not reduced. -/
def reversedF (M : Fsm σ) (fuel : Nat) : Except Err (Fsm Nat) :=
  crawlFuel fuel M.alphabet M.finals.toFinset
    (fun cur => decide (M.initial ∈ cur))
    (fun cur s => .ok (revFollow M cur s))

/-- `fsm.reduce`: double reversal (Brzozowski). -/
def reduceF (M : Fsm σ) (fuel : Nat) : Except Err (Fsm Nat) :=
  match reversedF M fuel with
  | .error e => .error e
  | .ok R => reversedF R fuel

theorem crawlFuel_fields {μ : Type} [DecidableEq μ] {fuel : Nat} {alpha : List Sym}
    {init : μ} {fin : μ → Bool} {fol : μ → Sym → Except Err μ} {F : Fsm Nat}
    (h : crawlFuel fuel alpha init fin fol = .ok F) :
    F.alphabet = alpha ∧ F.initial = 0 := by
  obtain ⟨S, hF, _, _⟩ := crawlFuel_ok h
  exact ⟨by rw [hF], by rw [hF]⟩

theorem decide_mem_foldl_revFollow (M : Fsm σ) (ws : List Sym) :
    decide (M.initial ∈ List.foldl (revFollow M) M.finals.toFinset ws) =
      acceptsRawB M M.initial ws.reverse := by
  cases ht : trekRaw M M.initial ws.reverse with
  | none =>
    have hmem := mem_foldl_revFollow M ws M.finals.toFinset M.initial
    rw [ht] at hmem
    simp only [acceptsRawB, ht]
    simpa using hmem
  | some q =>
    have hmem := mem_foldl_revFollow M ws M.finals.toFinset M.initial
    rw [ht] at hmem
    simp only [acceptsRawB, ht]
    simp only [List.mem_toFinset] at hmem
    by_cases hq : q ∈ M.finals
    · simp [hmem, hq]
    · simp [hmem, hq]

/-- What `accepts` computes on the (un-reduced) output of
`fsm.__reversed__`: every effective symbol must lie in the alphabet and
the original machine must accept the reversed effective word (along raw
transitions). -/
theorem reversed_accepts (M : Fsm σ) (fuel : Nat) (R : Fsm Nat)
    (h : reversedF M fuel = .ok R) (w : List Sym) :
    R.accepts w =
      some (((effW M.alphabet w).all (fun s => decide (s ∈ M.alphabet))) &&
        acceptsRawB M M.initial ((effW M.alphabet w).reverse)) := by
  have hsem := (crawl_sem (f := revFollow M) h).1 w
  rw [hsem, decide_mem_foldl_revFollow]

/-- `accepts` returns `some true` exactly when the raw trek along the
effective word completes in a final state (no assumptions on the
machine at all). -/
theorem acceptsFrom_true_iff (M : Fsm σ) :
    ∀ (w : List Sym) (q : σ),
      acceptsFrom M q w = some true ↔
        acceptsRawB M q (effW M.alphabet w) = true := by
  intro w
  induction w with
  | nil =>
    intro q
    simp [acceptsFrom, acceptsRawB, effW, trekRaw]
  | cons s rest ih =>
    intro q
    simp only [acceptsFrom, effW, List.map_cons]
    cases hrow : alookup M.map q with
    | none =>
      simp only [acceptsRawB, trekRaw, deltaRaw, hrow]
      simp
    | some row =>
      cases hlk : alookup row (effSym M.alphabet s) with
      | none =>
        simp only [acceptsRawB, trekRaw, deltaRaw, hrow, hlk]
        simp
      | some t =>
        have hd : deltaRaw M q (effSym M.alphabet s) = some t := by
          simp [deltaRaw, hrow, hlk]
        rw [acceptsRawB_cons M q _ _ t hd]
        simp only [hrow, hlk]
        exact ih t

theorem accepts_true_iff (M : Fsm σ) (w : List Sym) :
    M.accepts w = some true ↔
      acceptsRawB M M.initial (effW M.alphabet w) = true :=
  acceptsFrom_true_iff M w M.initial

theorem acceptsRawB_true_trek (M : Fsm σ) (q : σ) (v : List Sym)
    (h : acceptsRawB M q v = true) :
    ∃ r, trekRaw M q v = some r ∧ r ∈ M.finals := by
  unfold acceptsRawB at h
  cases ht : trekRaw M q v with
  | none => rw [ht] at h; cases h
  | some r =>
    rw [ht] at h
    simp only [decide_eq_true_eq] at h
    exact ⟨r, rfl, h⟩

/-- When every symbol mentioned in a transition row belongs to the
alphabet, a completed raw trek only consumes alphabet symbols. -/
theorem trekRaw_all_mem (M : Fsm σ)
    (hRowSyms : ∀ p ∈ M.map, ∀ e ∈ p.2, e.1 ∈ M.alphabet) :
    ∀ (v : List Sym) (q r : σ), trekRaw M q v = some r →
      v.all (fun s => decide (s ∈ M.alphabet)) = true := by
  intro v
  induction v with
  | nil => intro q r _; rfl
  | cons s rest ih =>
    intro q r h
    simp only [trekRaw] at h
    cases hd : deltaRaw M q s with
    | none => rw [hd] at h; cases h
    | some t =>
      rw [hd] at h
      unfold deltaRaw at hd
      cases hrow : alookup M.map q with
      | none => rw [hrow] at hd; cases hd
      | some row =>
        rw [hrow] at hd
        have hs : s ∈ M.alphabet :=
          hRowSyms _ (alookup_mem hrow) _ (alookup_mem hd)
        simp only [List.all_cons, Bool.and_eq_true, decide_eq_true_eq]
        exact ⟨hs, ih t r h⟩

/-- Claim C2 (amended): for every DFA whose transition rows mention only
alphabet symbols, `reversed(reversed(A))` — i.e. `reduce(A)` — accepts a
word exactly when `A` accepts it (whenever the two powerset crawls
complete within the given fuel). -/
theorem C2_reduce_preserves_language (M : Fsm σ) (fuel : Nat) (RR : Fsm Nat)
    (hRowSyms : ∀ p ∈ M.map, ∀ e ∈ p.2, e.1 ∈ M.alphabet)
    (h : reduceF M fuel = .ok RR) (w : List Sym) :
    RR.accepts w = some true ↔ M.accepts w = some true := by
  unfold reduceF at h
  cases hR : reversedF M fuel with
  | error e => rw [hR] at h; cases h
  | ok R =>
    rw [hR] at h
    dsimp only at h
    obtain ⟨hRalpha, hRinit⟩ := crawlFuel_fields hR
    have hacc := reversed_accepts R fuel RR h w
    rw [hRalpha] at hacc
    rw [accepts_true_iff M w]
    by_cases hall : (effW M.alphabet w).all (fun s => decide (s ∈ M.alphabet)) = true
    · have hallrev : ((effW M.alphabet w).reverse).all
          (fun s => decide (s ∈ M.alphabet)) = true := by
        rw [List.all_reverse]
        exact hall
      have hB := (crawl_sem (f := revFollow M) hR).2
        ((effW M.alphabet w).reverse) hallrev
      rw [hRinit] at hB
      rw [hacc, hall, Bool.true_and, hRinit, hB, decide_mem_foldl_revFollow,
        List.reverse_reverse]
      simp
    · have hallb : (effW M.alphabet w).all (fun s => decide (s ∈ M.alphabet)) = false :=
        Bool.not_eq_true _ ▸ (by simpa using hall)
      rw [hacc, hallb, Bool.false_and]
      constructor
      · intro hcontra
        cases hcontra
      · intro htrue
        obtain ⟨r, htrek, _⟩ := acceptsRawB_true_trek M M.initial _ htrue
        exact absurd (trekRaw_all_mem M hRowSyms _ _ _ htrek) hall

/-- Counterexample to C2 as stated: a DFA whose map mentions a symbol
outside its (empty) alphabet accepts that symbol, but its double
reversal rejects it. -/
theorem C2_counterexample :
    (reduceF (⟨[], [0, 1], 0, [1], [(0, [(Sym.c 5, 1)])]⟩ : Fsm Nat) 4).map
        (fun RR => RR.accepts [Sym.c 5]) = .ok (some false) ∧
    Fsm.accepts (⟨[], [0, 1], 0, [1], [(0, [(Sym.c 5, 1)])]⟩ : Fsm Nat) [Sym.c 5]
      = some true := by
  decide

/-- Witness for C2 on the two-state machine accepting exactly the
one-symbol word `[c 0]`; its Brzozowski reduction is the minimal
three-state machine (with the dead state reified). -/
theorem C2_reduce_preserves_language_witness :
    (∀ p ∈ (⟨[Sym.c 0], [0, 1], 0, [1],
        [(0, [(Sym.c 0, 1)]), (1, [])]⟩ : Fsm Nat).map,
      ∀ e ∈ p.2, e.1 ∈ (⟨[Sym.c 0], [0, 1], 0, [1],
        [(0, [(Sym.c 0, 1)]), (1, [])]⟩ : Fsm Nat).alphabet) ∧
    reduceF (⟨[Sym.c 0], [0, 1], 0, [1],
        [(0, [(Sym.c 0, 1)]), (1, [])]⟩ : Fsm Nat) 10 =
      .ok ⟨[Sym.c 0], [0, 1, 2], 0, [1],
        [(0, [(Sym.c 0, 1)]), (1, [(Sym.c 0, 2)]), (2, [(Sym.c 0, 2)])]⟩ ∧
    (Fsm.accepts (⟨[Sym.c 0], [0, 1, 2], 0, [1],
        [(0, [(Sym.c 0, 1)]), (1, [(Sym.c 0, 2)]), (2, [(Sym.c 0, 2)])]⟩ : Fsm Nat)
        [Sym.c 0] = some true ↔
      Fsm.accepts (⟨[Sym.c 0], [0, 1], 0, [1],
        [(0, [(Sym.c 0, 1)]), (1, [])]⟩ : Fsm Nat) [Sym.c 0] = some true) :=
  ⟨by decide, by decide,
    C2_reduce_preserves_language _ 10 _ (by decide) (by decide) [Sym.c 0]⟩

/-- `fsm.null`: one non-final state self-looping on every alphabet
symbol; accepts nothing. -/
def nullF (alphabet : List Sym) : Fsm Nat :=
  ⟨alphabet, [0], 0, [], [(0, alphabet.map (fun s => (s, 0)))]⟩

/-- `fsm.epsilon`: initial final state 0, all symbols lead to the
non-final sink 1; accepts exactly the empty word. -/
def epsilonF (alphabet : List Sym) : Fsm Nat :=
  ⟨alphabet, [0, 1], 0, [0],
    [(0, alphabet.map (fun s => (s, 1))), (1, alphabet.map (fun s => (s, 1)))]⟩

theorem acceptsFrom_cons (M : Fsm σ) (q : σ) (s : Sym) (rest : List Sym) :
    acceptsFrom M q (s :: rest) =
      match alookup M.map q with
      | none => none
      | some row =>
        match alookup row (effSym M.alphabet s) with
        | none => some false
        | some t => acceptsFrom M t rest := rfl

theorem epsilonF_alphabet (alpha : List Sym) : (epsilonF alpha).alphabet = alpha := rfl

theorem epsilonF_map0 (alpha : List Sym) :
    alookup (epsilonF alpha).map 0 = some (alpha.map (fun s => (s, 1))) := rfl

theorem epsilonF_map1 (alpha : List Sym) :
    alookup (epsilonF alpha).map 1 = some (alpha.map (fun s => (s, 1))) := rfl

theorem alookup_const_map {β : Type} (alphabet : List Sym) (t : β) (x : Sym) :
    alookup (alphabet.map (fun s => (s, t))) x =
      if x ∈ alphabet then some t else none := by
  induction alphabet with
  | nil => simp [alookup]
  | cons a rest ih =>
    by_cases hx : a = x
    · subst hx; simp [alookup]
    · simp [alookup, hx, ih, Ne.symm hx]

theorem epsilonF_sink (alpha : List Sym) :
    ∀ (rest : List Sym), acceptsFrom (epsilonF alpha) 1 rest = some false := by
  intro rest
  induction rest with
  | nil => rfl
  | cons s r ih =>
    rw [acceptsFrom_cons, epsilonF_map1 alpha]
    dsimp only
    rw [epsilonF_alphabet, alookup_const_map]
    by_cases hmem : effSym alpha s ∈ alpha
    · rw [if_pos hmem]
      exact ih
    · rw [if_neg hmem]

/-- `epsilon(Σ)` accepts exactly the empty word. -/
theorem epsilonF_accepts (alpha : List Sym) (w : List Sym) :
    (epsilonF alpha).accepts w = some (decide (w = [])) := by
  cases w with
  | nil => rfl
  | cons s r =>
    show acceptsFrom (epsilonF alpha) 0 (s :: r) = some (decide (s :: r = []))
    rw [acceptsFrom_cons, epsilonF_map0 alpha]
    dsimp only
    rw [epsilonF_alphabet, alookup_const_map]
    by_cases hmem : effSym alpha s ∈ alpha
    · rw [if_pos hmem]
      show acceptsFrom (epsilonF alpha) 1 r = some (decide (s :: r = []))
      rw [epsilonF_sink alpha r]
      simp
    · rw [if_neg hmem]
      show some false = some (decide (s :: r = []))
      simp

/-- One element of the new composite state in `__add__.follow`:
follow the tagged substate, merging in the other machine's initial state
when a final state of the first machine is reached.  `none` models the
`KeyError` that `self.map[state][symbol]` raises. -/
def addStep {α β : Type} [DecidableEq α] [DecidableEq β] (A : Fsm α) (B : Fsm β)
    (s : Sym) : α ⊕ β → Option (Finset (α ⊕ β))
  | Sum.inl a =>
    match deltaRaw A a s with
    | none => none
    | some t =>
      if t ∈ A.finals then some {Sum.inl t, Sum.inr B.initial}
      else some {Sum.inl t}
  | Sum.inr b =>
    match deltaRaw B b s with
    | none => none
    | some t => some {Sum.inr t}

/-- `__add__.follow` over a composite state. -/
def addFollow {α β : Type} [DecidableEq α] [DecidableEq β] (A : Fsm α) (B : Fsm β)
    (cur : Finset (α ⊕ β)) (s : Sym) : Except Err (Finset (α ⊕ β)) :=
  if h : ∀ x ∈ cur, (addStep A B s x).isSome = true then
    .ok (cur.biUnion (fun x => (addStep A B s x).getD ∅))
  else .error .keyErr

/-- The initial composite state of `__add__`. -/
def addInit {α β : Type} (A : Fsm α) (B : Fsm β) [DecidableEq α] [DecidableEq β] :
    Finset (α ⊕ β) :=
  if A.initial ∈ A.finals then {Sum.inl A.initial, Sum.inr B.initial}
  else {Sum.inl A.initial}

/-- The per-substate disjunct of `__add__.final`. -/
def addFinalProp {α β : Type} [DecidableEq α] [DecidableEq β] (A : Fsm α) (B : Fsm β) :
    α ⊕ β → Prop
  | Sum.inl a => a ∈ A.finals ∧ B.initial ∈ B.finals
  | Sum.inr b => b ∈ B.finals

instance addFinalPropDec {α β : Type} [DecidableEq α] [DecidableEq β]
    (A : Fsm α) (B : Fsm β) : DecidablePred (addFinalProp A B) := fun x =>
  match x with
  | Sum.inl a => inferInstanceAs (Decidable (a ∈ A.finals ∧ B.initial ∈ B.finals))
  | Sum.inr b => inferInstanceAs (Decidable (b ∈ B.finals))

/-- `__add__.final`: some tagged substate satisfies its disjunct. -/
def addFinal {α β : Type} [DecidableEq α] [DecidableEq β] (A : Fsm α) (B : Fsm β)
    (m : Finset (α ⊕ β)) : Bool :=
  decide (∃ x ∈ m, addFinalProp A B x)

/-- Python set equality of two alphabets presented as lists. -/
def alphaSetEq (a b : List Sym) : Bool :=
  decide (∀ s ∈ a, s ∈ b) && decide (∀ s ∈ b, s ∈ a)

/-- `fsm.__add__` (concatenation): check alphabets, crawl the tagged
powerset construction, then reduce. -/
def addF {α β : Type} [DecidableEq α] [DecidableEq β] (A : Fsm α) (B : Fsm β)
    (fuel : Nat) : Except Err (Fsm Nat) :=
  if alphaSetEq A.alphabet B.alphabet then
    match crawlFuel fuel A.alphabet (addInit A B) (addFinal A B) (addFollow A B) with
    | .error e => .error e
    | .ok F => reduceF F fuel
  else .error .alphaDiff

/-- The remaining `output += self` iterations of `__mul__`, followed by
the final `output.reduce()`. -/
def mulGo (A : Fsm σ) (fuel : Nat) : Nat → Fsm Nat → Except Err (Fsm Nat)
  | 0, out => reduceF out fuel
  | k + 1, out =>
    match addF out A fuel with
    | .error e => .error e
    | .ok out2 => mulGo A fuel k out2

/-- `fsm.__mul__`: error on a negative multiplier, `epsilon` on zero,
otherwise `multiplier - 1` concatenations of `A` with itself followed by
a reduce.  (The fold is split into a first step because the running
output changes state type after the first concatenation.) -/
def mulF (A : Fsm σ) (n : Int) (fuel : Nat) : Except Err (Fsm Nat) :=
  if n < 0 then .error .negative
  else if n = 0 then .ok (epsilonF A.alphabet)
  else
    match n.toNat - 1 with
    | 0 => reduceF A fuel
    | k + 1 =>
      match addF A A fuel with
      | .error e => .error e
      | .ok out => mulGo A fuel k out

theorem crawlRow_ne_negative {μ : Type} [DecidableEq μ] {fol : μ → Sym → Except Err μ}
    (hfol : ∀ m s, fol m s ≠ .error Err.negative) (st : μ) :
    ∀ (syms : List Sym) (states : List μ),
      crawlRow fol st syms states ≠ .error Err.negative := by
  intro syms
  induction syms with
  | nil => intro states h; cases h
  | cons s ss ih =>
    intro states h
    simp only [crawlRow] at h
    cases hf : fol st s with
    | error e =>
      rw [hf] at h
      dsimp only at h
      cases h
      exact hfol st s hf
    | ok nxt =>
      rw [hf] at h
      dsimp only at h
      cases hidx : indexOfD states nxt with
      | some j =>
        rw [hidx] at h
        dsimp only at h
        cases hrec : crawlRow fol st ss states with
        | error e =>
          rw [hrec] at h
          dsimp only at h
          cases h
          exact ih states hrec
        | ok p => rw [hrec] at h; dsimp only at h; obtain ⟨a, b⟩ := p; cases h
      | none =>
        rw [hidx] at h
        dsimp only at h
        cases hrec : crawlRow fol st ss (states ++ [nxt]) with
        | error e =>
          rw [hrec] at h
          dsimp only at h
          cases h
          exact ih (states ++ [nxt]) hrec
        | ok p => rw [hrec] at h; dsimp only at h; obtain ⟨a, b⟩ := p; cases h

theorem crawlLoop_ne_negative {μ : Type} [DecidableEq μ] {alphaS : List Sym}
    {fin : μ → Bool} {fol : μ → Sym → Except Err μ}
    (hfol : ∀ m s, fol m s ≠ .error Err.negative) :
    ∀ (fuel i : Nat) (states : List μ) (finals : List Nat)
      (mapAcc : List (Nat × List (Sym × Nat))),
      crawlLoop alphaS fin fol fuel i states finals mapAcc ≠ .error Err.negative := by
  intro fuel
  induction fuel with
  | zero => intro i states finals mapAcc h; cases h
  | succ fuel ih =>
    intro i states finals mapAcc h
    rw [crawlLoop] at h
    by_cases hi : i < states.length
    · rw [dif_pos hi] at h
      dsimp only at h
      cases hrow : crawlRow fol (states.get ⟨i, hi⟩) alphaS states with
      | error e =>
        rw [hrow] at h
        dsimp only at h
        cases h
        exact crawlRow_ne_negative hfol _ _ _ hrow
      | ok p =>
        obtain ⟨states2, row⟩ := p
        rw [hrow] at h
        dsimp only at h
        exact ih _ _ _ _ h
    · rw [dif_neg hi] at h
      cases h

theorem crawlFuel_ne_negative {μ : Type} [DecidableEq μ] {fuel : Nat}
    {alpha : List Sym} {init : μ} {fin : μ → Bool} {fol : μ → Sym → Except Err μ}
    (hfol : ∀ m s, fol m s ≠ .error Err.negative) :
    crawlFuel fuel alpha init fin fol ≠ .error Err.negative := by
  intro h
  unfold crawlFuel at h
  cases hloop : crawlLoop (sortSyms alpha) fin fol fuel 0 [init] [] [] with
  | error e =>
    rw [hloop] at h
    cases h
    exact crawlLoop_ne_negative hfol _ _ _ _ _ hloop
  | ok p =>
    obtain ⟨S, Fi, Mp⟩ := p
    rw [hloop] at h
    dsimp only at h
    cases hmk : mkFsm alpha (List.range S.length) 0 Fi Mp with
    | none => rw [hmk] at h; cases h
    | some F => rw [hmk] at h; cases h

theorem reversedF_ne_negative (M : Fsm σ) (fuel : Nat) :
    reversedF M fuel ≠ .error Err.negative :=
  crawlFuel_ne_negative (fun _ _ h => by cases h)

theorem reduceF_ne_negative (M : Fsm σ) (fuel : Nat) :
    reduceF M fuel ≠ .error Err.negative := by
  intro h
  unfold reduceF at h
  cases hR : reversedF M fuel with
  | error e =>
    rw [hR] at h
    cases h
    exact reversedF_ne_negative M fuel hR
  | ok R =>
    rw [hR] at h
    dsimp only at h
    exact reversedF_ne_negative R fuel h

theorem addFollow_ne_negative {α β : Type} [DecidableEq α] [DecidableEq β]
    (A : Fsm α) (B : Fsm β) (cur : Finset (α ⊕ β)) (s : Sym) :
    addFollow A B cur s ≠ .error Err.negative := by
  unfold addFollow
  split
  · intro h; cases h
  · intro h; cases h

theorem addF_ne_negative {α β : Type} [DecidableEq α] [DecidableEq β]
    (A : Fsm α) (B : Fsm β) (fuel : Nat) :
    addF A B fuel ≠ .error Err.negative := by
  intro h
  unfold addF at h
  split at h
  · cases hc : crawlFuel fuel A.alphabet (addInit A B) (addFinal A B) (addFollow A B) with
    | error e =>
      rw [hc] at h
      cases h
      exact crawlFuel_ne_negative (fun m s => addFollow_ne_negative A B m s) hc
    | ok F =>
      rw [hc] at h
      dsimp only at h
      exact reduceF_ne_negative F fuel h
  · cases h

theorem mulGo_ne_negative (A : Fsm σ) (fuel : Nat) :
    ∀ (k : Nat) (out : Fsm Nat), mulGo A fuel k out ≠ .error Err.negative := by
  intro k
  induction k with
  | zero => intro out h; exact reduceF_ne_negative out fuel h
  | succ k ih =>
    intro out h
    simp only [mulGo] at h
    cases ha : addF out A fuel with
    | error e =>
      rw [ha] at h
      cases h
      exact addF_ne_negative out A fuel ha
    | ok out2 =>
      rw [ha] at h
      exact ih out2 h

/-- Claim C7 (amended): multiplication raises the negative-multiplier
error exactly for `n < 0` (other exceptions remain possible for
`n ≥ 0`, e.g. a KeyError on a partial transition map); `A × 0` is the
epsilon machine over `A`'s alphabet, which accepts exactly the empty
word; and for machines whose transition rows mention only alphabet
symbols, `A × 1` accepts exactly the same words as `A` (whenever its
crawls complete). -/
theorem C7_mul_spec (A : Fsm σ) (n : Int) (fuel : Nat)
    (hRowSyms : ∀ p ∈ A.map, ∀ e ∈ p.2, e.1 ∈ A.alphabet) :
    (mulF A n fuel = .error Err.negative ↔ n < 0) ∧
    mulF A 0 fuel = .ok (epsilonF A.alphabet) ∧
    (∀ w, (epsilonF A.alphabet).accepts w = some (decide (w = []))) ∧
    (∀ (M1 : Fsm Nat) (w : List Sym), mulF A 1 fuel = .ok M1 →
      (M1.accepts w = some true ↔ A.accepts w = some true)) := by
  refine ⟨⟨?_, ?_⟩, ?_, epsilonF_accepts A.alphabet, ?_⟩
  · intro h
    by_contra hn
    push_neg at hn
    unfold mulF at h
    rw [if_neg (by omega)] at h
    by_cases h0 : n = 0
    · rw [if_pos h0] at h
      cases h
    · rw [if_neg h0] at h
      cases hm : n.toNat - 1 with
      | zero =>
        rw [hm] at h
        exact reduceF_ne_negative A fuel h
      | succ k =>
        rw [hm] at h
        dsimp only at h
        cases ha : addF A A fuel with
        | error e =>
          rw [ha] at h
          cases h
          exact addF_ne_negative A A fuel ha
        | ok out =>
          rw [ha] at h
          exact mulGo_ne_negative A fuel k out h
  · intro hn
    unfold mulF
    rw [if_pos hn]
  · unfold mulF
    norm_num
  · intro M1 w h1
    have h1eq : reduceF A fuel = .ok M1 := by
      unfold mulF at h1
      rw [if_neg (by omega), if_neg (by omega)] at h1
      exact h1
    exact C2_reduce_preserves_language A fuel M1 hRowSyms h1eq w

/-- Witness for C7 on the one-state machine accepting `(c 1)*`. -/
theorem C7_mul_spec_witness :
    (∀ p ∈ (⟨[Sym.c 1], [0], 0, [0], [(0, [(Sym.c 1, 0)])]⟩ : Fsm Nat).map,
      ∀ e ∈ p.2, e.1 ∈ (⟨[Sym.c 1], [0], 0, [0],
        [(0, [(Sym.c 1, 0)])]⟩ : Fsm Nat).alphabet) ∧
    mulF (⟨[Sym.c 1], [0], 0, [0], [(0, [(Sym.c 1, 0)])]⟩ : Fsm Nat) 1 10 =
      .ok ⟨[Sym.c 1], [0], 0, [0], [(0, [(Sym.c 1, 0)])]⟩ ∧
    (Fsm.accepts (⟨[Sym.c 1], [0], 0, [0], [(0, [(Sym.c 1, 0)])]⟩ : Fsm Nat)
        [Sym.c 1] = some true ↔
      Fsm.accepts (⟨[Sym.c 1], [0], 0, [0], [(0, [(Sym.c 1, 0)])]⟩ : Fsm Nat)
        [Sym.c 1] = some true) :=
  ⟨by decide, by decide,
    (C7_mul_spec (⟨[Sym.c 1], [0], 0, [0], [(0, [(Sym.c 1, 0)])]⟩ : Fsm Nat) 1 10
      (by decide)).2.2.2 _ [Sym.c 1] (by decide)⟩

/-- Counterexample to C7 as stated: multiplying a DFA with a
transition-less state row by 2 raises a KeyError inside the
concatenation crawl, although the multiplier is non-negative. -/
theorem C7_counterexample :
    mulF (⟨[Sym.c 0], [0], 0, [0], [(0, [])]⟩ : Fsm Nat) 2 30 = .error Err.keyErr ∧
    ¬ ((2 : Int) < 0) := by
  constructor
  · decide
  · decide

/-- Witness for C6 on a one-state crawl over a two-symbol alphabet
presented in two different orders. -/
theorem C6_crawl_deterministic_witness :
    List.Perm [Sym.c 1, Sym.c 0] [Sym.c 0, Sym.c 1] ∧
    Except.map Fsm.core
        (crawlFuel 3 [Sym.c 1, Sym.c 0] (0 : Nat) (fun _ => true) (fun m _ => .ok m)) =
      Except.map Fsm.core
        (crawlFuel 3 [Sym.c 0, Sym.c 1] (0 : Nat) (fun _ => true) (fun m _ => .ok m)) :=
  ⟨by decide,
    C6_crawl_deterministic 3 [Sym.c 1, Sym.c 0] [Sym.c 0, Sym.c 1] 0 _ _ (by decide)⟩


/-! ## The regex parser (`src/greenery/parse.py`)

Python strings are modelled as `List Char` with explicit indices, string
slicing `s[i:j]` as `strSlice` (clamped, never raising), and single-item
indexing `s[i]` as `getCh` (raising `IndexError` when out of range).
The helper modules `bound`, `charclass`, `multiplier` and `rxelems` are
not under `src/`; their pieces used by the parser are modelled from the
spec and marked as such. -/

/-- Parser-level outcomes.  `noMatch` is the `NoMatch` exception used
for backtracking; `indexErr` a Python `IndexError`; `contract` an
invalid-multiplier-bounds error (modelled from the spec contract
`lower ≤ upper`); `terminal i` the whole-input-not-consumed failure
raised by `parse` with the offending index; `fuelOut` is an embedding
artifact. -/
inductive PErr : Type where
  | noMatch : PErr
  | indexErr : PErr
  | contract : PErr
  | terminal (i : Nat) : PErr
  | fuelOut : PErr
deriving DecidableEq, Repr

abbrev Str := List Char

/-- Python slice `s[i:j]` (clamped at both ends, never raising). -/
def strSlice (s : Str) (i j : Nat) : Str := (s.take j).drop i

/-- Python single-character indexing `s[i]`, raising `IndexError` when
the index is out of range. -/
def getCh (s : Str) (i : Nat) : Except PErr Char :=
  match s.drop i with
  | [] => .error .indexErr
  | ch :: _ => .ok ch

/-- `static` from `parse.py`: match a fixed token at `i`, returning the
index beyond it. -/
def staticF (s : Str) (i : Nat) (st : Str) : Except PErr Nat :=
  if strSlice s i (i + st.length) = st then .ok (i + st.length)
  else .error .noMatch

/-- `select_static`: the first of several fixed tokens matching at `i`. -/
def selectStatic (s : Str) (i : Nat) : List Str → Except PErr (Str × Nat)
  | [] => .error .noMatch
  | st :: rest =>
    match staticF s i st with
    | .ok j => .ok (st, j)
    | .error _ => selectStatic s i rest

/-- The scan of `read_until`. -/
def readUntilGo (s : Str) (stopc : Char) (start : Nat) :
    Nat → Nat → Except PErr (Str × Nat)
  | 0, _ => .error .fuelOut
  | fuel + 1, i =>
    if i ≥ s.length then .error .noMatch
    else if s.getD i ' ' = stopc then .ok (strSlice s start i, i + 1)
    else readUntilGo s stopc start fuel (i + 1)

/-- `read_until` from `parse.py`. -/
def readUntil (s : Str) (i : Nat) (stopc : Char) : Except PErr (Str × Nat) :=
  readUntilGo s stopc i (s.length + 1 - i) i

/-- Modelled from the spec: `Bound = finite n ≥ 0 | INF` (the `bound`
module is not under `src/`). -/
inductive Bound : Type where
  | fin (n : Nat) : Bound
  | inf : Bound
deriving DecidableEq, Repr

/-- Modelled from the spec: the order on bounds with `INF` on top. -/
def boundLeB : Bound → Bound → Bool
  | .fin a, .fin b => a ≤ b
  | .fin _, .inf => true
  | .inf, .fin _ => false
  | .inf, .inf => true

/-- Modelled from the spec: `Multiplier(lower, upper)` with the contract
`lower ≤ upper` (the `multiplier` module is not under `src/`). -/
structure Multiplier : Type where
  lower : Bound
  upper : Bound
deriving DecidableEq, Repr

/-- Modelled from the spec: constructing a multiplier violating
`lower ≤ upper` raises (a non-`NoMatch` error). -/
def mkMultiplier (lo hi : Bound) : Except PErr Multiplier :=
  if boundLeB lo hi then .ok ⟨lo, hi⟩ else .error .contract

/-- Modelled from the spec: `Charclass(chars, negated)` (the `charclass`
module is not under `src/`). -/
structure Charclass : Type where
  chars : List Char
  negated : Bool
deriving DecidableEq, Repr

/-- Modelled from the spec: union of two character classes in the
finite/cofinite representation. -/
def ccUnion (a b : Charclass) : Charclass :=
  match a.negated, b.negated with
  | false, false => ⟨(a.chars ++ b.chars).dedup, false⟩
  | false, true => ⟨b.chars.filter (fun ch => ch ∉ a.chars), true⟩
  | true, false => ⟨a.chars.filter (fun ch => ch ∉ b.chars), true⟩
  | true, true => ⟨a.chars.filter (fun ch => ch ∈ b.chars), true⟩

/-- Modelled from the spec: `Charclass.union(*predicates)`. -/
def ccUnionAll (l : List Charclass) : Charclass := l.foldl ccUnion ⟨[], false⟩

/-- Modelled from the spec: `~cc` flips the negation flag. -/
def ccNeg (a : Charclass) : Charclass := ⟨a.chars, !a.negated⟩

/-- Modelled from the spec: the escape table `escapes`
(`\t \n \r \f \v`), mapping each escaped character to its two-character
source form. -/
def escapes : List (Char × Str) :=
  [('\t', ['\\', 't']), ('\n', ['\\', 'n']), ('\r', ['\\', 'r']),
   (Char.ofNat 12, ['\\', 'f']), (Char.ofNat 11, ['\\', 'v'])]

/-- Modelled from the spec: `Charclass.classSpecial`, the characters
needing a backslash inside a character class. -/
def classSpecial : List Char := ['\\', '[', ']', '^', '-']

/-- Modelled from the spec: `Charclass.allSpecial`, the metacharacters
needing a backslash outside a character class. -/
def allSpecial : List Char :=
  ['\\', '[', ']', '|', '(', ')', '?', '*', '+', '{', '}', '^', '$', '.']

/-- Modelled from the spec: the character content of `\w`. -/
def wChars : List Char :=
  ((List.range 26).map (fun n => Char.ofNat (97 + n))) ++
  ((List.range 26).map (fun n => Char.ofNat (65 + n))) ++
  ((List.range 10).map (fun n => Char.ofNat (48 + n))) ++ ['_']

/-- Modelled from the spec: the character content of `\d`. -/
def dChars : List Char := (List.range 10).map (fun n => Char.ofNat (48 + n))

/-- Modelled from the spec: the character content of `\s`. -/
def sChars : List Char :=
  [' ', '\t', '\n', '\r', Char.ofNat 12, Char.ofNat 11]

/-- Modelled from the spec: `Charclass.shorthand` (positive in-class
shorthands). -/
def interiorShorthand : List (List Char × Str) :=
  [(wChars, ['\\', 'w']), (dChars, ['\\', 'd']), (sChars, ['\\', 's'])]

/-- Modelled from the spec: `Charclass.negated_shorthand`. -/
def negatedInteriorShorthand : List (List Char × Str) :=
  [(wChars, ['\\', 'W']), (dChars, ['\\', 'D']), (sChars, ['\\', 'S'])]

/-- Modelled from the spec: the top-level `shorthand` table mapping
ready-made character classes to their tokens (`.` matches any
character). -/
def ccShorthand : List (Charclass × Str) :=
  [(⟨[], true⟩, ['.']),
   (⟨wChars, false⟩, ['\\', 'w']), (⟨dChars, false⟩, ['\\', 'd']),
   (⟨sChars, false⟩, ['\\', 's']),
   (⟨wChars, true⟩, ['\\', 'W']), (⟨dChars, true⟩, ['\\', 'D']),
   (⟨sChars, true⟩, ['\\', 'S'])]

/-- Modelled from the spec: the `symbolic` multiplier table in the
iteration order produced by sorting on descending token length
(`?`, `*`, `+`, then the empty token). -/
def symbolicList : List (Multiplier × Str) :=
  [(⟨Bound.fin 0, Bound.fin 1⟩, ['?']), (⟨Bound.fin 0, Bound.inf⟩, ['*']),
   (⟨Bound.fin 1, Bound.inf⟩, ['+']), (⟨Bound.fin 1, Bound.fin 1⟩, [])]

/-- The loop over `escapes` in `match_internal_char`. -/
def escLoop (s : Str) (i : Nat) : List (Char × Str) → Except PErr (Char × Nat)
  | [] => .error .noMatch
  | (k, tok) :: rest =>
    match staticF s i tok with
    | .ok j => .ok (k, j)
    | .error .noMatch => escLoop s i rest
    | .error e => .error e

/-- The loop over `Charclass.classSpecial` in `match_internal_char`. -/
def classSpecialLoop (s : Str) (i : Nat) : List Char → Except PErr (Char × Nat)
  | [] => .error .noMatch
  | ch :: rest =>
    match staticF s i ['\\', ch] with
    | .ok j => .ok (ch, j)
    | .error .noMatch => classSpecialLoop s i rest
    | .error e => .error e

/-- The hexadecimal digits accepted by `unescape_hex`. -/
def hexDigits : Str := "0123456789AaBbCcDdEeFf".toList

/-- Numeric value of one hexadecimal digit. -/
def hexVal (ch : Char) : Nat :=
  if ch.toNat ≥ 97 then ch.toNat - 87
  else if ch.toNat ≥ 65 then ch.toNat - 55
  else ch.toNat - 48

/-- `unescape_hex` from `parse.py`: `\xHH` with exactly two hex digits.
Note the unguarded `string[j]` reads, which raise `IndexError` at end
of input. -/
def unescapeHex (s : Str) (i : Nat) : Except PErr (Char × Nat) :=
  match staticF s i ['\\', 'x'] with
  | .error e => .error e
  | .ok j =>
    match getCh s j with
    | .error e => .error e
    | .ok hex1 =>
      if hex1 ∈ hexDigits then
        match getCh s (j + 1) with
        | .error e => .error e
        | .ok hex2 =>
          if hex2 ∈ hexDigits then
            .ok (Char.ofNat (16 * hexVal hex1 + hexVal hex2), j + 2)
          else .error .noMatch
      else .error .noMatch

/-- `match_internal_char` from `parse.py`.  The final `string[i]` read
is unguarded and raises `IndexError` at end of input. -/
def matchInternalChar (s : Str) (i : Nat) : Except PErr (Char × Nat) :=
  match escLoop s i escapes with
  | .ok r => .ok r
  | .error .noMatch =>
    match classSpecialLoop s i classSpecial with
    | .ok r => .ok r
    | .error .noMatch =>
      match unescapeHex s i with
      | .ok r => .ok r
      | .error .noMatch =>
        match getCh s i with
        | .error e => .error e
        | .ok ch =>
          if ch ∈ classSpecial then .error .noMatch
          else .ok (ch, i + 1)
      | .error e => .error e
    | .error e => .error e
  | .error e => .error e

/-- The set `frozenset(chr(i) for i in range(a, b + 1))`. -/
def charRange (a b : Nat) : List Char :=
  (List.range (b + 1 - a)).map (fun n => Char.ofNat (a + n))

/-- The shorthand loops of `match_class_interior_1`. -/
def shLoop (s : Str) (i : Nat) (neg : Bool) :
    List (List Char × Str) → Except PErr ((List Char × Bool) × Nat)
  | [] => .error .noMatch
  | (chars, tok) :: rest =>
    match staticF s i tok with
    | .ok j => .ok ((chars, neg), j)
    | .error .noMatch => shLoop s i neg rest
    | .error e => .error e

/-- Attempt 2 of `match_class_interior_1`: a range `first-last`,
rejected (with `NoMatch`) unless `ord(first) < ord(last)`. -/
def rangeAttempt (s : Str) (i : Nat) : Except PErr ((List Char × Bool) × Nat) :=
  match matchInternalChar s i with
  | .error e => .error e
  | .ok (first, j) =>
    match staticF s j ['-'] with
    | .error e => .error e
    | .ok k =>
      match matchInternalChar s k with
      | .error e => .error e
      | .ok (last, k2) =>
        if first.toNat ≥ last.toNat then .error .noMatch
        else .ok ((charRange first.toNat last.toNat, false), k2)

/-- `match_class_interior_1` from `parse.py`: shorthand, negated
shorthand, a strict range, or a single character. -/
def matchClassInterior1 (s : Str) (i : Nat) :
    Except PErr ((List Char × Bool) × Nat) :=
  match shLoop s i false interiorShorthand with
  | .ok r => .ok r
  | .error .noMatch =>
    match shLoop s i true negatedInteriorShorthand with
    | .ok r => .ok r
    | .error .noMatch =>
      match rangeAttempt s i with
      | .ok r => .ok r
      | .error .noMatch =>
        match matchInternalChar s i with
        | .error e => .error e
        | .ok (ch, j) => .ok (([ch], false), j)
      | .error e => .error e
    | .error e => .error e
  | .error e => .error e

/-- `match_any_of` from `parse.py`. -/
def matchAnyOf (s : Str) (i : Nat) : List Char → Except PErr (Char × Nat)
  | [] => .error .noMatch
  | ch :: rest =>
    match staticF s i [ch] with
    | .ok j => .ok (ch, j)
    | .error .noMatch => matchAnyOf s i rest
    | .error e => .error e

/-- Numeric value of a decimal digit. -/
def digitVal (ch : Char) : Nat := ch.toNat - 48

/-- The digit-accumulation loop of `match_bound`. -/
def boundDigitsGo (s : Str) : Nat → Nat → Nat → Except PErr (Nat × Nat)
  | 0, _, _ => .error .fuelOut
  | fuel + 1, acc, j =>
    match matchAnyOf s j "0123456789".toList with
    | .ok (d, j2) => boundDigitsGo s fuel (acc * 10 + digitVal d) j2
    | .error .noMatch => .ok (acc, j)
    | .error e => .error e

/-- `match_bound` from `parse.py`: `"0"` is the complete bound 0 (no
leading zeros); a nonzero digit starts a decimal number; anything else
consumes nothing and is the infinite bound. -/
def matchBound (s : Str) (i : Nat) : Except PErr (Bound × Nat) :=
  match staticF s i ['0'] with
  | .ok j => .ok (Bound.fin 0, j)
  | .error .noMatch =>
    match matchAnyOf s i "123456789".toList with
    | .ok (d, j) =>
      match boundDigitsGo s (s.length + 1 - j) (digitVal d) j with
      | .ok (n, j2) => .ok (Bound.fin n, j2)
      | .error e => .error e
    | .error .noMatch => .ok (Bound.inf, i)
    | .error e => .error e
  | .error e => .error e

/-- The `{min,max}` attempt of `match_multiplier`. -/
def braceCommaAttempt (s : Str) (i : Nat) : Except PErr (Multiplier × Nat) :=
  match staticF s i ['{'] with
  | .error e => .error e
  | .ok j =>
    match matchBound s j with
    | .error e => .error e
    | .ok (lo, j2) =>
      match staticF s j2 [','] with
      | .error e => .error e
      | .ok j3 =>
        match matchBound s j3 with
        | .error e => .error e
        | .ok (hi, j4) =>
          match staticF s j4 ['}'] with
          | .error e => .error e
          | .ok j5 =>
            match mkMultiplier lo hi with
            | .error e => .error e
            | .ok m => .ok (m, j5)

/-- The `{n}` attempt of `match_multiplier`. -/
def braceAttempt (s : Str) (i : Nat) : Except PErr (Multiplier × Nat) :=
  match staticF s i ['{'] with
  | .error e => .error e
  | .ok j =>
    match matchBound s j with
    | .error e => .error e
    | .ok (lo, j2) =>
      match staticF s j2 ['}'] with
      | .error e => .error e
      | .ok j3 =>
        match mkMultiplier lo lo with
        | .error e => .error e
        | .ok m => .ok (m, j3)

/-- The symbolic-multiplier loop of `match_multiplier`. -/
def symbolicLoop (s : Str) (i : Nat) :
    List (Multiplier × Str) → Except PErr (Multiplier × Nat)
  | [] => .error .noMatch
  | (m, tok) :: rest =>
    match staticF s i tok with
    | .ok j => .ok (m, j)
    | .error .noMatch => symbolicLoop s i rest
    | .error e => .error e

/-- `match_multiplier` from `parse.py`. -/
def matchMultiplier (s : Str) (i : Nat) : Except PErr (Multiplier × Nat) :=
  match braceCommaAttempt s i with
  | .ok r => .ok r
  | .error .noMatch =>
    match braceAttempt s i with
    | .ok r => .ok r
    | .error .noMatch => symbolicLoop s i symbolicList
    | .error e => .error e
  | .error e => .error e


/-- The class-interior accumulation loop of `match_class_interior`. -/
def matchClassInteriorGo (s : Str) :
    Nat → Nat → List Charclass → Except PErr (List Charclass × Nat)
  | 0, _, _ => .error .fuelOut
  | fuel + 1, i, acc =>
    match matchClassInterior1 s i with
    | .ok ((chars, neg), j) => matchClassInteriorGo s fuel j (acc ++ [⟨chars, neg⟩])
    | .error .noMatch => .ok (acc, i)
    | .error e => .error e

/-- `match_class_interior` from `parse.py`. -/
def matchClassInterior (s : Str) (i fuel : Nat) : Except PErr (Charclass × Nat) :=
  match matchClassInteriorGo s fuel i [] with
  | .ok (preds, j) => .ok (ccUnionAll preds, j)
  | .error e => .error e

/-- The top-level shorthand loop of `match_charclass`. -/
def ccShLoop (s : Str) (i : Nat) :
    List (Charclass × Str) → Except PErr (Charclass × Nat)
  | [] => .error .noMatch
  | (cc, tok) :: rest =>
    match staticF s i tok with
    | .ok j => .ok (cc, j)
    | .error .noMatch => ccShLoop s i rest
    | .error e => .error e

/-- The escape loop of `match_charclass`. -/
def ccEscLoop (s : Str) (i : Nat) :
    List (Char × Str) → Except PErr (Charclass × Nat)
  | [] => .error .noMatch
  | (k, tok) :: rest =>
    match staticF s i tok with
    | .ok j => .ok (⟨[k], false⟩, j)
    | .error .noMatch => ccEscLoop s i rest
    | .error e => .error e

/-- The `allSpecial` escape loop of `match_charclass`. -/
def ccSpecialLoop (s : Str) (i : Nat) : List Char → Except PErr (Charclass × Nat)
  | [] => .error .noMatch
  | ch :: rest =>
    match staticF s i ['\\', ch] with
    | .ok j => .ok (⟨[ch], false⟩, j)
    | .error .noMatch => ccSpecialLoop s i rest
    | .error e => .error e

/-- The `[^…]` attempt of `match_charclass`. -/
def negClassAttempt (s : Str) (i fuel : Nat) : Except PErr (Charclass × Nat) :=
  match staticF s i ['[', '^'] with
  | .error e => .error e
  | .ok j =>
    match matchClassInterior s j fuel with
    | .error e => .error e
    | .ok (cc, j2) =>
      match staticF s j2 [']'] with
      | .error e => .error e
      | .ok j3 => .ok (ccNeg cc, j3)

/-- The `[…]` attempt of `match_charclass`. -/
def classAttempt (s : Str) (i fuel : Nat) : Except PErr (Charclass × Nat) :=
  match staticF s i ['['] with
  | .error e => .error e
  | .ok j =>
    match matchClassInterior s j fuel with
    | .error e => .error e
    | .ok (cc, j2) =>
      match staticF s j2 [']'] with
      | .error e => .error e
      | .ok j3 => .ok (cc, j3)

/-- `match_charclass` from `parse.py`. -/
def matchCharclass (s : Str) (i : Nat) (fuel : Nat) : Except PErr (Charclass × Nat) :=
  if i ≥ s.length then .error .noMatch
  else
    match ccShLoop s i ccShorthand with
    | .ok r => .ok r
    | .error .noMatch =>
      match negClassAttempt s i fuel with
      | .ok r => .ok r
      | .error .noMatch =>
        match classAttempt s i fuel with
        | .ok r => .ok r
        | .error .noMatch =>
          match ccEscLoop s i escapes with
          | .ok r => .ok r
          | .error .noMatch =>
            match ccSpecialLoop s i allSpecial with
            | .ok r => .ok r
            | .error .noMatch =>
              match unescapeHex s i with
              | .ok (ch, j) => .ok (⟨[ch], false⟩, j)
              | .error .noMatch =>
                match getCh s i with
                | .error e => .error e
                | .ok ch =>
                  if ch ∈ allSpecial then .error .noMatch
                  else .ok (⟨[ch], false⟩, i + 1)
              | .error e => .error e
            | .error e => .error e
          | .error e => .error e
        | .error e => .error e
      | .error e => .error e
    | .error e => .error e

mutual

/-- Modelled from the spec: `Pattern` is an alternation of `Conc`s
(the `rxelems` module is not under `src/`). -/
inductive Pattern : Type where
  | mk (concs : List Conc) : Pattern

/-- Modelled from the spec: `Conc` is a concatenation of `Mult`s. -/
inductive Conc : Type where
  | mk (mults : List Mult) : Conc

/-- Modelled from the spec: `Mult` applies a multiplier to a
multiplicand. -/
inductive Mult : Type where
  | mk (mand : Multiplicand) (mer : Multiplier) : Mult

/-- Modelled from the spec: a multiplicand is a group or a character
class. -/
inductive Multiplicand : Type where
  | pat (p : Pattern) : Multiplicand
  | cc (c : Charclass) : Multiplicand

end

mutual

/-- The `(?:…)` / `(?P<name>…)` attempt of `match_multiplicand`. -/
def ncGroupAttemptF (fuel0 : Nat) (s : Str) (i : Nat) :
    Except PErr (Multiplicand × Nat) :=
  match fuel0 with
  | 0 => .error .fuelOut
  | fuel + 1 =>
    match staticF s i ['(', '?'] with
    | .error e => .error e
    | .ok j =>
      match selectStatic s j [[':'], ['P', '<']] with
      | .error e => .error e
      | .ok (st, j2) =>
        match (if st = ['P', '<'] then
            match readUntil s j2 '>' with
            | .error e => (.error e : Except PErr Nat)
            | .ok (_, j3) => .ok j3
          else (.ok j2 : Except PErr Nat)) with
        | .error e => .error e
        | .ok j3 =>
          match matchPatternF fuel s j3 with
          | .error e => .error e
          | .ok (p, j4) =>
            match staticF s j4 [')'] with
            | .error e => .error e
            | .ok j5 => .ok (Multiplicand.pat p, j5)
termination_by structural fuel0

/-- The plain `(…)` attempt of `match_multiplicand`. -/
def plainGroupAttemptF (fuel0 : Nat) (s : Str) (i : Nat) :
    Except PErr (Multiplicand × Nat) :=
  match fuel0 with
  | 0 => .error .fuelOut
  | fuel + 1 =>
    match staticF s i ['('] with
    | .error e => .error e
    | .ok j =>
      match matchPatternF fuel s j with
      | .error e => .error e
      | .ok (p, j2) =>
        match staticF s j2 [')'] with
        | .error e => .error e
        | .ok j3 => .ok (Multiplicand.pat p, j3)
termination_by structural fuel0

/-- `match_multiplicand` from `parse.py`. -/
def matchMultiplicandF (fuel0 : Nat) (s : Str) (i : Nat) :
    Except PErr (Multiplicand × Nat) :=
  match fuel0 with
  | 0 => .error .fuelOut
  | fuel + 1 =>
    match ncGroupAttemptF fuel s i with
    | .ok r => .ok r
    | .error .noMatch =>
      match plainGroupAttemptF fuel s i with
      | .ok r => .ok r
      | .error .noMatch =>
        match matchCharclass s i fuel with
        | .error e => .error e
        | .ok (cc, j) => .ok (Multiplicand.cc cc, j)
      | .error e => .error e
    | .error e => .error e
termination_by structural fuel0

/-- `match_mult` from `parse.py`. -/
def matchMultF (fuel0 : Nat) (s : Str) (i : Nat) : Except PErr (Mult × Nat) :=
  match fuel0 with
  | 0 => .error .fuelOut
  | fuel + 1 =>
    match matchMultiplicandF fuel s i with
    | .error e => .error e
    | .ok (mand, j) =>
      match matchMultiplier s j with
      | .error e => .error e
      | .ok (mer, j2) => .ok (Mult.mk mand mer, j2)
termination_by structural fuel0

/-- The mult-accumulation loop of `match_conc`; a `NoMatch` from
`match_mult` ends the concatenation. -/
def concLoopF (fuel0 : Nat) (s : Str) (i : Nat) (acc : List Mult) :
    Except PErr (Conc × Nat) :=
  match fuel0 with
  | 0 => .error .fuelOut
  | fuel + 1 =>
    match matchMultF fuel s i with
    | .ok (m, j) => concLoopF fuel s j (acc ++ [m])
    | .error .noMatch => .ok (Conc.mk acc, i)
    | .error e => .error e
termination_by structural fuel0

/-- `match_conc` from `parse.py`. -/
def matchConcF (fuel0 : Nat) (s : Str) (i : Nat) : Except PErr (Conc × Nat) :=
  match fuel0 with
  | 0 => .error .fuelOut
  | fuel + 1 => concLoopF fuel s i []
termination_by structural fuel0

/-- The `('|' conc)*` loop of `match_pattern`; a `NoMatch` from either
the bar or the following conc ends the pattern (note the index has
already advanced past the bar in the latter case, exactly as in the
Python code). -/
def patternTailF (fuel0 : Nat) (s : Str) (i : Nat) (acc : List Conc) :
    Except PErr (Pattern × Nat) :=
  match fuel0 with
  | 0 => .error .fuelOut
  | fuel + 1 =>
    match staticF s i ['|'] with
    | .error .noMatch => .ok (Pattern.mk acc, i)
    | .error e => .error e
    | .ok j =>
      match matchConcF fuel s j with
      | .ok (c, j2) => patternTailF fuel s j2 (acc ++ [c])
      | .error .noMatch => .ok (Pattern.mk acc, j)
      | .error e => .error e
termination_by structural fuel0

/-- `match_pattern` from `parse.py`. -/
def matchPatternF (fuel0 : Nat) (s : Str) (i : Nat) :
    Except PErr (Pattern × Nat) :=
  match fuel0 with
  | 0 => .error .fuelOut
  | fuel + 1 =>
    match matchConcF fuel s i with
    | .error e => .error e
    | .ok (c, j) => patternTailF fuel s j [c]


termination_by structural fuel0
end

/-- `parse` from `parse.py`: parse a full pattern and fail with the
terminal error (carrying the offending index) if the whole input was
not consumed. -/
def parseF (s : Str) (fuel : Nat) : Except PErr Pattern :=
  match matchPatternF fuel s 0 with
  | .error e => .error e
  | .ok (p, i) => if i = s.length then .ok p else .error (.terminal i)


theorem concLoopF_ne_noMatch :
    ∀ (fuel : Nat) (s : Str) (i : Nat) (acc : List Mult),
      concLoopF fuel s i acc ≠ .error PErr.noMatch := by
  intro fuel
  induction fuel with
  | zero => intro s i acc h; simp [concLoopF] at h
  | succ fuel ih =>
    intro s i acc h
    simp only [concLoopF] at h
    cases hm : matchMultF fuel s i with
    | ok r =>
      obtain ⟨m, j⟩ := r
      rw [hm] at h
      dsimp only at h
      exact ih s j (acc ++ [m]) h
    | error e =>
      rw [hm] at h
      cases e <;> simp at h

theorem matchConcF_ne_noMatch :
    ∀ (fuel : Nat) (s : Str) (i : Nat), matchConcF fuel s i ≠ .error PErr.noMatch := by
  intro fuel s i h
  cases fuel with
  | zero => simp [matchConcF] at h
  | succ fuel =>
    simp only [matchConcF] at h
    exact concLoopF_ne_noMatch fuel s i [] h

theorem patternTailF_ne_noMatch :
    ∀ (fuel : Nat) (s : Str) (i : Nat) (acc : List Conc),
      patternTailF fuel s i acc ≠ .error PErr.noMatch := by
  intro fuel
  induction fuel with
  | zero => intro s i acc h; simp [patternTailF] at h
  | succ fuel ih =>
    intro s i acc h
    simp only [patternTailF] at h
    cases hb : staticF s i ['|'] with
    | error e =>
      rw [hb] at h
      cases e <;> simp at h
    | ok j =>
      rw [hb] at h
      dsimp only at h
      cases hc : matchConcF fuel s j with
      | ok r =>
        obtain ⟨c, j2⟩ := r
        rw [hc] at h
        dsimp only at h
        exact ih s j2 (acc ++ [c]) h
      | error e =>
        rw [hc] at h
        cases e with
        | noMatch => exact matchConcF_ne_noMatch fuel s j hc
        | indexErr => simp at h
        | contract => simp at h
        | terminal k => simp at h
        | fuelOut => simp at h

theorem matchPatternF_ne_noMatch :
    ∀ (fuel : Nat) (s : Str) (i : Nat), matchPatternF fuel s i ≠ .error PErr.noMatch := by
  intro fuel s i h
  cases fuel with
  | zero => simp [matchPatternF] at h
  | succ fuel =>
    simp only [matchPatternF] at h
    cases hc : matchConcF fuel s i with
    | error e =>
      rw [hc] at h
      dsimp only at h
      cases h
      exact matchConcF_ne_noMatch fuel s i hc
    | ok r =>
      obtain ⟨c, j⟩ := r
      rw [hc] at h
      dsimp only at h
      exact patternTailF_ne_noMatch fuel s j [c] h

/-- Claim C8 (amended): `parse` either returns a `Pattern` having
consumed the whole input, or fails with the terminal parse failure
carrying the offending index; the `NoMatch` error used internally for
backtracking never propagates out of `parse`.  (Beyond the claim's
terminal failure, an out-of-range string-index error from an unguarded
`string[i]` at end of input, and an invalid-multiplier-bounds error,
can also escape; the fuel marker is an embedding artifact.) -/
theorem C8_parse_never_leaks_noMatch (s : Str) (fuel : Nat) :
    parseF s fuel ≠ .error PErr.noMatch ∧
    (∀ (p : Pattern) (i : Nat), matchPatternF fuel s 0 = .ok (p, i) →
      parseF s fuel = if i = s.length then .ok p else .error (.terminal i)) := by
  constructor
  · intro h
    unfold parseF at h
    cases hm : matchPatternF fuel s 0 with
    | error e =>
      rw [hm] at h
      dsimp only at h
      cases h
      exact matchPatternF_ne_noMatch fuel s 0 hm
    | ok r =>
      obtain ⟨p, i⟩ := r
      rw [hm] at h
      dsimp only at h
      by_cases hi : i = s.length
      · rw [if_pos hi] at h; cases h
      · rw [if_neg hi] at h; cases h
  · intro p i hm
    unfold parseF
    rw [hm]

/-- The error component of a parse result. -/
def errOf : Except PErr Pattern → Option PErr
  | .error e => some e
  | .ok _ => none

/-- Counterexample to C8 as stated: `parse("\x")` escapes with an
`IndexError` (an unguarded read past the end of the input inside
`unescape_hex`), which is neither a returned `Pattern` nor the terminal
parse failure; and an invalid-multiplier-bounds error also escapes. -/
theorem C8_counterexample :
    errOf (parseF ['\\', 'x'] 30) = some PErr.indexErr ∧
    errOf (parseF ['a', Char.ofNat 123, ',', '3', Char.ofNat 125] 30) =
      some PErr.contract := by
  constructor
  · decide
  · decide

/-- Witness for C8 on a well-formed input and on an input failing
terminally at index 0. -/
theorem C8_parse_never_leaks_noMatch_witness :
    parseF ['a', '|', 'b'] 30 ≠ .error PErr.noMatch ∧
    errOf (parseF [')'] 30) = some (PErr.terminal 0) :=
  ⟨(C8_parse_never_leaks_noMatch ['a', '|', 'b'] 30).1, by decide⟩


/-- Claim C9: inside a character-class interior, the three-token
sequence `first-last` parses as a range exactly when
`ord(first) < ord(last)`; with `ord(first) ≥ ord(last)` the range
attempt is rejected and only the first character is consumed, as a
single-character class.  (The two characters are assumed to be plain
in-class characters, i.e. not class-special.) -/
theorem C9_range_strictness (c1 c2 : Char)
    (h1 : c1 ∉ classSpecial) (h2 : c2 ∉ classSpecial) :
    (c2.toNat ≤ c1.toNat →
      matchClassInterior1 [c1, '-', c2] 0 = .ok (([c1], false), 1)) ∧
    (c1.toNat < c2.toNat →
      matchClassInterior1 [c1, '-', c2] 0 =
        .ok ((charRange c1.toNat c2.toNat, false), 3)) := by
  simp only [classSpecial, List.mem_cons, List.not_mem_nil, or_false, not_or] at h1 h2
  obtain ⟨h1a, h1b, h1c, h1d, h1e⟩ := h1
  obtain ⟨h2a, h2b, h2c, h2d, h2e⟩ := h2
  have hL1 : matchInternalChar [c1, '-', c2] 0 = .ok (c1, 1) := by
    simp [matchInternalChar, escLoop, escapes, classSpecialLoop, classSpecial,
      unescapeHex, staticF, strSlice, getCh, h1a, h1b, h1c, h1d, h1e]
  have hL2 : matchInternalChar [c1, '-', c2] 2 = .ok (c2, 3) := by
    simp [matchInternalChar, escLoop, escapes, classSpecialLoop, classSpecial,
      unescapeHex, staticF, strSlice, getCh, h2a, h2b, h2c, h2d, h2e]
  have hsh1 : shLoop [c1, '-', c2] 0 false interiorShorthand = .error .noMatch := by
    simp [shLoop, interiorShorthand, staticF, strSlice]
  have hsh2 : shLoop [c1, '-', c2] 0 true negatedInteriorShorthand =
      .error .noMatch := by
    simp [shLoop, negatedInteriorShorthand, staticF, strSlice]
  have hdash : staticF [c1, '-', c2] 1 ['-'] = .ok 2 := by
    simp [staticF, strSlice]
  constructor
  · intro hge
    have hra : rangeAttempt [c1, '-', c2] 0 = .error .noMatch := by
      simp only [rangeAttempt, hL1, hdash, hL2]
      rw [if_pos (by omega)]
    simp only [matchClassInterior1, hsh1, hsh2, hra, hL1]
  · intro hlt
    have hra : rangeAttempt [c1, '-', c2] 0 =
        .ok ((charRange c1.toNat c2.toNat, false), 3) := by
      simp only [rangeAttempt, hL1, hdash, hL2]
      rw [if_neg (by omega)]
    simp only [matchClassInterior1, hsh1, hsh2, hra]

/-- Witness for C9: `d-a` is not a range (only `d` is consumed), while
`a-d` is the range `abcd`. -/
theorem C9_range_strictness_witness :
    ('d' ∉ classSpecial ∧ 'a' ∉ classSpecial) ∧
    matchClassInterior1 ['d', '-', 'a'] 0 = .ok ((['d'], false), 1) ∧
    matchClassInterior1 ['a', '-', 'd'] 0 =
      .ok ((['a', 'b', 'c', 'd'], false), 3) :=
  ⟨⟨by decide, by decide⟩,
    (C9_range_strictness 'd' 'a' (by decide) (by decide)).1 (by decide),
    by
      have := (C9_range_strictness 'a' 'd' (by decide) (by decide)).2 (by decide)
      rw [this]
      decide⟩


theorem strSlice_one (s : Str) :
    ∀ (i : Nat) (hi : i < s.length), strSlice s i (i + 1) = [s.get ⟨i, hi⟩] := by
  induction s with
  | nil => intro i hi; simp at hi
  | cons a t ih =>
    intro i hi
    cases i with
    | zero => rfl
    | succ i =>
      have hi2 : i < t.length := by simpa using hi
      have := ih i hi2
      simp only [strSlice] at this ⊢
      simpa [List.take_succ_cons, List.drop_succ_cons] using this

theorem strSlice_one_ge (s : Str) (i : Nat) (hi : s.length ≤ i) :
    strSlice s i (i + 1) = [] := by
  unfold strSlice
  apply List.drop_eq_nil_of_le
  simp
  omega

theorem staticF_single_ok (s : Str) (i : Nat) (hi : i < s.length) (ch : Char)
    (h : s.get ⟨i, hi⟩ = ch) : staticF s i [ch] = .ok (i + 1) := by
  unfold staticF
  rw [show i + ([ch] : Str).length = i + 1 from rfl, strSlice_one s i hi, h]
  simp

theorem staticF_single_ne (s : Str) (i : Nat) (ch : Char)
    (h : ∀ (hi : i < s.length), s.get ⟨i, hi⟩ ≠ ch) :
    staticF s i [ch] = .error .noMatch := by
  unfold staticF
  by_cases hi : i < s.length
  · rw [show i + ([ch] : Str).length = i + 1 from rfl, strSlice_one s i hi]
    rw [if_neg (by simpa using h hi)]
  · rw [show i + ([ch] : Str).length = i + 1 from rfl, strSlice_one_ge s i (by omega)]
    rw [if_neg (by simp)]

theorem matchAnyOf_ok (s : Str) (i : Nat) (hi : i < s.length) :
    ∀ (coll : List Char), s.get ⟨i, hi⟩ ∈ coll →
      matchAnyOf s i coll = .ok (s.get ⟨i, hi⟩, i + 1) := by
  intro coll
  induction coll with
  | nil => intro hmem; simp at hmem
  | cons ch rest ih =>
    intro hmem
    by_cases hch : ch = s.get ⟨i, hi⟩
    · subst hch
      simp only [matchAnyOf, staticF_single_ok s i hi _ rfl]
    · have hmem2 : s.get ⟨i, hi⟩ ∈ rest := by
        rcases List.mem_cons.mp hmem with h | h
        · exact absurd h.symm hch
        · exact h
      simp only [matchAnyOf, staticF_single_ne s i ch (fun hi2 => by
        rw [show (⟨i, hi2⟩ : Fin s.length) = ⟨i, hi⟩ from rfl]
        exact Ne.symm hch)]
      exact ih hmem2

theorem matchAnyOf_none (s : Str) (i : Nat) :
    ∀ (coll : List Char), (∀ (hi : i < s.length), s.get ⟨i, hi⟩ ∉ coll) →
      matchAnyOf s i coll = .error .noMatch := by
  intro coll
  induction coll with
  | nil => intro _; rfl
  | cons ch rest ih =>
    intro hno
    simp only [matchAnyOf, staticF_single_ne s i ch (fun hi2 hc =>
      hno hi2 (by rw [hc]; exact List.mem_cons_self ch rest))]
    exact ih (fun hi2 hmem => hno hi2 (List.mem_cons_of_mem ch hmem))

theorem digits_list :
    "0123456789".toList = ['0', '1', '2', '3', '4', '5', '6', '7', '8', '9'] := rfl

theorem nzdigits_list :
    "123456789".toList = ['1', '2', '3', '4', '5', '6', '7', '8', '9'] := rfl

theorem nz_sub_digits (ch : Char) (h : ch ∈ "123456789".toList) :
    ch ∈ "0123456789".toList := by
  rw [nzdigits_list] at h
  rw [digits_list]
  simp only [List.mem_cons, List.not_mem_nil, or_false] at h ⊢
  rcases h with h | h | h | h | h | h | h | h | h <;> simp [h]

/-- The maximal run of decimal digits starting at position `i`. -/
def digitRun (s : Str) (i : Nat) : Str :=
  (s.drop i).takeWhile (fun ch => decide (ch ∈ "0123456789".toList))

/-- The decimal value accumulation of `match_bound`. -/
def decAccum (acc : Nat) (ds : Str) : Nat :=
  ds.foldl (fun a ch => a * 10 + digitVal ch) acc

theorem boundDigitsGo_spec (s : Str) :
    ∀ (fuel j acc : Nat), s.length - j < fuel →
      boundDigitsGo s fuel acc j =
        .ok (decAccum acc (digitRun s j), j + (digitRun s j).length) := by
  intro fuel
  induction fuel with
  | zero => intro j acc h; omega
  | succ fuel ih =>
    intro j acc h
    by_cases hj : j < s.length
    · by_cases hd : s.get ⟨j, hj⟩ ∈ "0123456789".toList
      · have hrun : digitRun s j = s.get ⟨j, hj⟩ :: digitRun s (j + 1) := by
          unfold digitRun
          rw [List.drop_eq_getElem_cons hj]
          simp only [List.takeWhile_cons, List.get_eq_getElem]
          rw [if_pos (by simpa using hd)]
        simp only [boundDigitsGo, matchAnyOf_ok s j hj _ hd]
        rw [ih (j + 1) (acc * 10 + digitVal (s.get ⟨j, hj⟩)) (by omega)]
        rw [hrun]
        simp only [decAccum, List.foldl_cons, List.length_cons, List.get_eq_getElem]
        rw [show j + ((digitRun s (j + 1)).length + 1) =
          j + 1 + (digitRun s (j + 1)).length from by omega]
      · have hrun : digitRun s j = [] := by
          unfold digitRun
          rw [List.drop_eq_getElem_cons hj]
          simp only [List.takeWhile_cons, List.get_eq_getElem]
          rw [if_neg (by simpa using hd)]
        simp only [boundDigitsGo,
          matchAnyOf_none s j _ (fun hi2 => by
            rw [show (⟨j, hi2⟩ : Fin s.length) = ⟨j, hj⟩ from rfl]
            exact hd)]
        rw [hrun]
        simp [decAccum]
    · have hrun : digitRun s j = [] := by
        unfold digitRun
        rw [List.drop_eq_nil_of_le (by omega)]
        rfl
      simp only [boundDigitsGo,
        matchAnyOf_none s j _ (fun hi2 => absurd hi2 hj)]
      rw [hrun]
      simp [decAccum]

/-- Claim C10: `match_bound` parses the single digit `0` as the
complete bound 0 (so no leading zeros: in `07` only the `0` is
consumed); a nonzero digit starts the maximal decimal run, whose value
is the bound; any other input (including end of input, `,` or `}`)
consumes nothing and yields the infinite bound INF — which is how the
missing bounds of `{4,}` and `{,3}` are read. -/
theorem C10_match_bound (s : Str) (i : Nat) :
    (∀ (h0 : i < s.length), s.get ⟨i, h0⟩ = '0' →
      matchBound s i = .ok (Bound.fin 0, i + 1)) ∧
    (∀ (h0 : i < s.length), s.get ⟨i, h0⟩ ∈ "123456789".toList →
      matchBound s i = .ok (Bound.fin (decAccum 0 (digitRun s i)),
        i + (digitRun s i).length)) ∧
    ((∀ (h0 : i < s.length), s.get ⟨i, h0⟩ ∉ "0123456789".toList) →
      matchBound s i = .ok (Bound.inf, i)) := by
  refine ⟨?_, ?_, ?_⟩
  · intro h0 hch
    simp only [matchBound, staticF_single_ok s i h0 '0' hch]
  · intro h0 hch
    have hne0 : s.get ⟨i, h0⟩ ≠ '0' := by
      intro hc
      rw [nzdigits_list] at hch
      rw [hc] at hch
      simp at hch
    have hdig : s.get ⟨i, h0⟩ ∈ "0123456789".toList := nz_sub_digits _ hch
    have hrun : digitRun s i = s.get ⟨i, h0⟩ :: digitRun s (i + 1) := by
      unfold digitRun
      rw [List.drop_eq_getElem_cons h0]
      simp only [List.takeWhile_cons, List.get_eq_getElem]
      rw [if_pos (by simpa using hdig)]
    simp only [matchBound, staticF_single_ne s i '0' (fun hi2 => by
      rw [show (⟨i, hi2⟩ : Fin s.length) = ⟨i, h0⟩ from rfl]
      exact hne0)]
    rw [matchAnyOf_ok s i h0 _ hch]
    dsimp only
    rw [boundDigitsGo_spec s (s.length + 1 - (i + 1)) (i + 1)
      (digitVal (s.get ⟨i, h0⟩)) (by omega)]
    dsimp only
    rw [hrun]
    simp only [decAccum, List.foldl_cons, List.length_cons, List.get_eq_getElem]
    rw [show i + ((digitRun s (i + 1)).length + 1) =
      i + 1 + (digitRun s (i + 1)).length from by omega]
    simp only [Nat.zero_mul, Nat.zero_add]
  · intro hno
    have h0fail : staticF s i ['0'] = .error .noMatch :=
      staticF_single_ne s i '0' (fun hi2 hc =>
        hno hi2 (by rw [hc]; rw [digits_list]; exact List.mem_cons_self _ _))
    have hnz : matchAnyOf s i "123456789".toList = .error .noMatch :=
      matchAnyOf_none s i _ (fun hi2 hmem => hno hi2 (nz_sub_digits _ hmem))
    simp only [matchBound, h0fail, hnz]

/-- Witness for C10: `07` parses as bound 0 leaving `7`; `42x` as
bound 42; `,3` consumes nothing and yields INF.  The multiplier `{4,}`
reads its missing upper bound as INF. -/
theorem C10_match_bound_witness :
    matchBound ['0', '7'] 0 = .ok (Bound.fin 0, 1) ∧
    matchBound ['4', '2', 'x'] 0 = .ok (Bound.fin 42, 2) ∧
    matchBound [',', '3'] 0 = .ok (Bound.inf, 0) ∧
    matchMultiplier [Char.ofNat 123, '4', ',', Char.ofNat 125] 0 =
      .ok (⟨Bound.fin 4, Bound.inf⟩, 4) :=
  ⟨(C10_match_bound ['0', '7'] 0).1 (by decide) (by decide),
    by
      have := (C10_match_bound ['4', '2', 'x'] 0).2.1 (by decide) (by decide)
      rw [this]
      decide,
    (C10_match_bound [',', '3'] 0).2.2 (fun h0 => by simp [digits_list]),
    by decide⟩


/-! ## The `strings` enumeration (claim C4) -/

/-- Strict symbol order underlying length-then-lex word ordering. -/
def symLt (a b : Sym) : Prop := symLe a b ∧ a ≠ b

/-- Strict lexicographic order on symbol lists. -/
def lexLt : List Sym → List Sym → Prop
  | [], [] => False
  | [], _ :: _ => True
  | _ :: _, [] => False
  | a :: u, b :: v => symLt a b ∨ (a = b ∧ lexLt u v)

/-- The enumeration order of `fsm.strings`: length ascending, then
lexicographic with ANY_ELSE last. -/
def wordLt (u v : List Sym) : Prop :=
  u.length < v.length ∨ (u.length = v.length ∧ lexLt u v)

theorem symLt_trans {a b c : Sym} (h1 : symLt a b) (h2 : symLt b c) : symLt a c := by
  obtain ⟨hle1, hne1⟩ := h1
  obtain ⟨hle2, hne2⟩ := h2
  refine ⟨Trans.trans hle1 hle2, ?_⟩
  intro hac
  subst hac
  exact hne1 (IsAntisymm.antisymm a b hle1 hle2)

theorem symLt_irrefl (a : Sym) : ¬ symLt a a := fun h => h.2 rfl

theorem lexLt_trans : ∀ {u v w : List Sym}, lexLt u v → lexLt v w → lexLt u w := by
  intro u
  induction u with
  | nil =>
    intro v w h1 h2
    cases v with
    | nil => exact absurd h1 (by simp [lexLt])
    | cons b v2 =>
      cases w with
      | nil => exact absurd h2 (by simp [lexLt])
      | cons c w2 => simp [lexLt]
  | cons a u2 ih =>
    intro v w h1 h2
    cases v with
    | nil => exact absurd h1 (by simp [lexLt])
    | cons b v2 =>
      cases w with
      | nil => exact absurd h2 (by simp [lexLt])
      | cons c w2 =>
        simp only [lexLt] at h1 h2 ⊢
        rcases h1 with h1 | ⟨rfl, h1⟩
        · rcases h2 with h2 | ⟨rfl, h2⟩
          · exact Or.inl (symLt_trans h1 h2)
          · exact Or.inl h1
        · rcases h2 with h2 | ⟨rfl, h2⟩
          · exact Or.inl h2
          · exact Or.inr ⟨rfl, ih h1 h2⟩

theorem lexLt_irrefl : ∀ (u : List Sym), ¬ lexLt u u := by
  intro u
  induction u with
  | nil => simp [lexLt]
  | cons a u2 ih =>
    simp only [lexLt]
    rintro (h | ⟨-, h⟩)
    · exact symLt_irrefl a h
    · exact ih h

theorem wordLt_trans {u v w : List Sym} (h1 : wordLt u v) (h2 : wordLt v w) :
    wordLt u w := by
  rcases h1 with h1 | ⟨hl1, hx1⟩
  · rcases h2 with h2 | ⟨hl2, _⟩
    · exact Or.inl (by omega)
    · exact Or.inl (by omega)
  · rcases h2 with h2 | ⟨hl2, hx2⟩
    · exact Or.inl (by omega)
    · exact Or.inr ⟨by omega, lexLt_trans hx1 hx2⟩

theorem wordLt_irrefl (u : List Sym) : ¬ wordLt u u := by
  rintro (h | ⟨-, h⟩)
  · omega
  · exact lexLt_irrefl u h

theorem wordLt_ne {u v : List Sym} (h : wordLt u v) : u ≠ v := by
  intro hc
  subst hc
  exact wordLt_irrefl u h

/-- A word precedes its one-symbol extension. -/
theorem wordLt_append_single (w : List Sym) (s : Sym) : wordLt w (w ++ [s]) :=
  Or.inl (by simp)

theorem lexLt_append_single {u v : List Sym} (hlen : u.length = v.length)
    (h : lexLt u v) (s t : Sym) : lexLt (u ++ [s]) (v ++ [t]) := by
  induction u generalizing v with
  | nil =>
    cases v with
    | nil => exact absurd h (by simp [lexLt])
    | cons b v2 => simp at hlen
  | cons a u2 ih =>
    cases v with
    | nil => simp at hlen
    | cons b v2 =>
      simp only [lexLt, List.cons_append] at h ⊢
      rcases h with h | ⟨rfl, h⟩
      · exact Or.inl h
      · exact Or.inr ⟨rfl, ih (by simpa using hlen) h⟩

/-- Extending two ordered words each by one symbol preserves the
order, whatever the new symbols are. -/
theorem wordLt_extend {u v : List Sym} (h : wordLt u v) (s t : Sym) :
    wordLt (u ++ [s]) (v ++ [t]) := by
  rcases h with h | ⟨hl, hx⟩
  · exact Or.inl (by simp; omega)
  · exact Or.inr ⟨by simp [hl], lexLt_append_single hl hx s t⟩

theorem lexLt_same_extend (w : List Sym) {s t : Sym} (h : symLt s t) :
    lexLt (w ++ [s]) (w ++ [t]) := by
  induction w with
  | nil => simp [lexLt, h]
  | cons a w2 ih => exact Or.inr ⟨rfl, ih⟩

/-- Two extensions of the same word are ordered by their last symbols. -/
theorem wordLt_same_extend (w : List Sym) {s t : Sym} (h : symLt s t) :
    wordLt (w ++ [s]) (w ++ [t]) :=
  Or.inr ⟨by simp, lexLt_same_extend w h⟩

theorem sorted_nodup_pairwise_lt : ∀ (l : List Sym), List.Sorted symLe l →
    l.Nodup → List.Pairwise symLt l := by
  intro l
  induction l with
  | nil => intro _ _; exact List.Pairwise.nil
  | cons a t ih =>
    intro hs hn
    rw [List.sorted_cons] at hs
    rw [List.nodup_cons] at hn
    refine List.Pairwise.cons ?_ (ih hs.2 hn.2)
    intro b hb
    refine ⟨hs.1 b hb, ?_⟩
    intro hab
    subst hab
    exact hn.1 hb

/-- A sorted list of distinct symbols is strictly increasing. -/
theorem sortSyms_pairwise_lt {xs : List Sym} (hnodup : xs.Nodup) :
    List.Pairwise symLt (sortSyms xs) :=
  sorted_nodup_pairwise_lt _ (sortSyms_sorted xs)
    ((sortSyms_perm xs).nodup_iff.mpr hnodup)


theorem nodup_subset_length_le {μ : Type} [DecidableEq μ] {l l2 : List μ}
    (hnd : l.Nodup) (hsub : l ⊆ l2) : l.length ≤ l2.length := by
  have h1 : l.toFinset.card = l.length := List.toFinset_card_of_nodup hnd
  have h2 : l.toFinset ⊆ l2.toFinset := by
    intro x hx
    simp only [List.mem_toFinset] at hx ⊢
    exact hsub hx
  have h3 : l.toFinset.card ≤ l2.toFinset.card := Finset.card_le_card h2
  have h4 : l2.toFinset.card ≤ l2.length := l2.toFinset_card_le
  omega

theorem alookup_of_mem_nodup {α β : Type} [DecidableEq α] :
    ∀ {l : List (α × β)} {a : α} {b : β},
      (l.map Prod.fst).Nodup → (a, b) ∈ l → alookup l a = some b := by
  intro l
  induction l with
  | nil => intro a b _ h; simp at h
  | cons p rest ih =>
    intro a b hnd hmem
    obtain ⟨k, v⟩ := p
    rw [List.map_cons, List.nodup_cons] at hnd
    rcases List.mem_cons.mp hmem with heq | hmem2
    · cases heq
      simp [alookup]
    · have hka : k ≠ a := by
        intro hc
        subst hc
        exact hnd.1 (List.mem_map.mpr ⟨(k, b), hmem2, rfl⟩)
      simp only [alookup, if_neg hka]
      exact ih hnd.2 hmem2

/-- The inner row loop of `fsm.islive`: append unseen transition
targets of the current state. -/
def isliveRow {σ : Type} [DecidableEq σ] : List (Sym × σ) → List σ → List σ
  | [], reachable => reachable
  | e :: rest, reachable =>
    isliveRow rest (if e.2 ∈ reachable then reachable else reachable ++ [e.2])

theorem isliveRow_ext {σ : Type} [DecidableEq σ] :
    ∀ (row : List (Sym × σ)) (reachable : List σ),
      ∃ ext, isliveRow row reachable = reachable ++ ext := by
  intro row
  induction row with
  | nil => intro reachable; exact ⟨[], by simp [isliveRow]⟩
  | cons e rest ih =>
    intro reachable
    simp only [isliveRow]
    by_cases he : e.2 ∈ reachable
    · rw [if_pos he]; exact ih reachable
    · rw [if_neg he]
      obtain ⟨ext, hext⟩ := ih (reachable ++ [e.2])
      exact ⟨[e.2] ++ ext, by rw [hext]; simp⟩

theorem isliveRow_mem {σ : Type} [DecidableEq σ] :
    ∀ (row : List (Sym × σ)) (reachable : List σ) (x : σ),
      x ∈ isliveRow row reachable → x ∈ reachable ∨ ∃ e ∈ row, x = e.2 := by
  intro row
  induction row with
  | nil => intro reachable x h; exact Or.inl h
  | cons e rest ih =>
    intro reachable x h
    simp only [isliveRow] at h
    by_cases he : e.2 ∈ reachable
    · rw [if_pos he] at h
      rcases ih _ x h with h2 | ⟨e2, he2, hx⟩
      · exact Or.inl h2
      · exact Or.inr ⟨e2, List.mem_cons_of_mem e he2, hx⟩
    · rw [if_neg he] at h
      rcases ih _ x h with h2 | ⟨e2, he2, hx⟩
      · rcases List.mem_append.mp h2 with h3 | h3
        · exact Or.inl h3
        · exact Or.inr ⟨e, List.mem_cons_self e rest, by simpa using h3⟩
      · exact Or.inr ⟨e2, List.mem_cons_of_mem e he2, hx⟩

theorem isliveRow_sub {σ : Type} [DecidableEq σ] :
    ∀ (row : List (Sym × σ)) (reachable : List σ) (x : σ),
      x ∈ reachable → x ∈ isliveRow row reachable := by
  intro row reachable x hx
  obtain ⟨ext, hext⟩ := isliveRow_ext row reachable
  rw [hext]
  exact List.mem_append.mpr (Or.inl hx)

theorem isliveRow_succ {σ : Type} [DecidableEq σ] :
    ∀ (row : List (Sym × σ)) (reachable : List σ) (e : Sym × σ),
      e ∈ row → e.2 ∈ isliveRow row reachable := by
  intro row
  induction row with
  | nil => intro reachable e h; simp at h
  | cons e2 rest ih =>
    intro reachable e h
    simp only [isliveRow]
    rcases List.mem_cons.mp h with heq | hmem
    · subst heq
      by_cases he : e.2 ∈ reachable
      · rw [if_pos he]
        exact isliveRow_sub rest _ _ he
      · rw [if_neg he]
        exact isliveRow_sub rest _ _ (by simp)
    · by_cases he : e2.2 ∈ reachable
      · rw [if_pos he]; exact ih _ e hmem
      · rw [if_neg he]; exact ih _ e hmem

theorem isliveRow_nodup {σ : Type} [DecidableEq σ] :
    ∀ (row : List (Sym × σ)) (reachable : List σ),
      reachable.Nodup → (isliveRow row reachable).Nodup := by
  intro row
  induction row with
  | nil => intro reachable h; exact h
  | cons e rest ih =>
    intro reachable h
    simp only [isliveRow]
    by_cases he : e.2 ∈ reachable
    · rw [if_pos he]; exact ih _ h
    · rw [if_neg he]
      refine ih _ ?_
      simpa [List.nodup_append] using ⟨h, he⟩

/-- The search loop of `fsm.islive`. -/
def isliveGo (M : Fsm σ) : Nat → Nat → List σ → Option Bool
  | 0, _, _ => none
  | fuel + 1, i, reachable =>
    if h : i < reachable.length then
      if reachable.get ⟨i, h⟩ ∈ M.finals then some true
      else
        match alookup M.map (reachable.get ⟨i, h⟩) with
        | none => isliveGo M fuel (i + 1) reachable
        | some row => isliveGo M fuel (i + 1) (isliveRow row reachable)
    else some false

/-- All transition targets mentioned anywhere in the map. -/
def allSucc (M : Fsm σ) : List σ :=
  (M.map.map (fun p => p.2.map Prod.snd)).flatten

/-- `fsm.islive`, with fuel provably sufficient for the search. -/
def isliveF (M : Fsm σ) (q : σ) : Bool :=
  match isliveGo M ((q :: allSucc M).length + 1) 0 [q] with
  | some b => b
  | none => false

theorem mem_allSucc {M : Fsm σ} {cur : σ} {row : List (Sym × σ)}
    (hrow : alookup M.map cur = some row) {e : Sym × σ} (he : e ∈ row) :
    e.2 ∈ allSucc M := by
  unfold allSucc
  rw [List.mem_flatten]
  exact ⟨row.map Prod.snd, List.mem_map_of_mem _ (alookup_mem hrow),
    List.mem_map_of_mem Prod.snd he⟩

theorem isliveGo_ne_none (M : Fsm σ) (q : σ) :
    ∀ (fuel i : Nat) (reachable : List σ),
      reachable.Nodup → (∀ r ∈ reachable, r ∈ q :: allSucc M) →
      i ≤ reachable.length →
      (q :: allSucc M).length + 1 ≤ fuel + i →
      isliveGo M fuel i reachable ≠ none := by
  intro fuel
  induction fuel with
  | zero =>
    intro i reachable hnd hsub hile hbound
    have := nodup_subset_length_le hnd hsub
    omega
  | succ fuel ih =>
    intro i reachable hnd hsub hile hbound h
    rw [isliveGo] at h
    by_cases hi : i < reachable.length
    · rw [dif_pos hi] at h
      by_cases hfin : reachable.get ⟨i, hi⟩ ∈ M.finals
      · rw [if_pos hfin] at h; cases h
      · rw [if_neg hfin] at h
        cases hrow : alookup M.map (reachable.get ⟨i, hi⟩) with
        | none =>
          rw [hrow] at h
          exact ih (i + 1) reachable hnd hsub (by omega) (by omega) h
        | some row =>
          rw [hrow] at h
          refine ih (i + 1) (isliveRow row reachable)
            (isliveRow_nodup row reachable hnd) ?_ ?_ (by omega) h
          · intro r hr
            rcases isliveRow_mem row reachable r hr with h2 | ⟨e, he, hx⟩
            · exact hsub r h2
            · subst hx
              exact List.mem_cons_of_mem q (mem_allSucc hrow he)
          · obtain ⟨ext, hext⟩ := isliveRow_ext row reachable
            rw [hext]
            simp
            omega
    · rw [dif_neg hi] at h
      cases h

theorem isliveGo_sound (M : Fsm σ) (q : σ)
    (hRowNodup : ∀ p ∈ M.map, (p.2.map Prod.fst).Nodup) :
    ∀ (fuel i : Nat) (reachable : List σ),
      (∀ r ∈ reachable, ∃ w, trekRaw M q w = some r) →
      isliveGo M fuel i reachable = some true →
      ∃ w r, trekRaw M q w = some r ∧ r ∈ M.finals := by
  intro fuel
  induction fuel with
  | zero => intro i reachable _ h; cases h
  | succ fuel ih =>
    intro i reachable hinv h
    rw [isliveGo] at h
    by_cases hi : i < reachable.length
    · rw [dif_pos hi] at h
      by_cases hfin : reachable.get ⟨i, hi⟩ ∈ M.finals
      · obtain ⟨w, hw⟩ := hinv _ (reachable.get_mem i hi)
        exact ⟨w, reachable.get ⟨i, hi⟩, hw, hfin⟩
      · rw [if_neg hfin] at h
        cases hrow : alookup M.map (reachable.get ⟨i, hi⟩) with
        | none =>
          rw [hrow] at h
          exact ih (i + 1) reachable hinv h
        | some row =>
          rw [hrow] at h
          refine ih (i + 1) (isliveRow row reachable) ?_ h
          intro r hr
          rcases isliveRow_mem row reachable r hr with h2 | ⟨e, he, hx⟩
          · exact hinv r h2
          · subst hx
            obtain ⟨w, hw⟩ := hinv _ (reachable.get_mem i hi)
            refine ⟨w ++ [e.1], ?_⟩
            rw [trekRaw_append, hw]
            have hdelta : deltaRaw M (reachable.get ⟨i, hi⟩) e.1 = some e.2 := by
              unfold deltaRaw
              rw [hrow]
              exact alookup_of_mem_nodup (hRowNodup _ (alookup_mem hrow))
                (by rcases e with ⟨a, b⟩; exact he)
            simp only [List.get_eq_getElem] at hdelta
            simp [trekRaw, hdelta]
    · rw [dif_neg hi] at h
      cases h

theorem trek_closed (M : Fsm σ) (S : List σ)
    (hclosed : ∀ r ∈ S, ∀ s t, deltaRaw M r s = some t → t ∈ S) :
    ∀ (u : List Sym) (r : σ), r ∈ S → ∀ t, trekRaw M r u = some t → t ∈ S := by
  intro u
  induction u with
  | nil => intro r hr t h; cases h; exact hr
  | cons s u2 ih =>
    intro r hr t h
    simp only [trekRaw] at h
    cases hd : deltaRaw M r s with
    | none => rw [hd] at h; cases h
    | some t1 =>
      rw [hd] at h
      exact ih t1 (hclosed r hr s t1 hd) t h

theorem isliveGo_complete (M : Fsm σ) :
    ∀ (fuel i : Nat) (reachable : List σ),
      (∀ (k : Nat) (hk : k < reachable.length), k < i →
        reachable.get ⟨k, hk⟩ ∉ M.finals ∧
        ∀ s t, deltaRaw M (reachable.get ⟨k, hk⟩) s = some t → t ∈ reachable) →
      isliveGo M fuel i reachable = some false →
      ∀ r ∈ reachable, ∀ (u : List Sym) (t : σ),
        trekRaw M r u = some t → t ∉ M.finals := by
  intro fuel
  induction fuel with
  | zero => intro i reachable _ h; cases h
  | succ fuel ih =>
    intro i reachable hproc h
    rw [isliveGo] at h
    by_cases hi : i < reachable.length
    · rw [dif_pos hi] at h
      by_cases hfin : reachable.get ⟨i, hi⟩ ∈ M.finals
      · rw [if_pos hfin] at h; cases h
      · rw [if_neg hfin] at h
        cases hrow : alookup M.map (reachable.get ⟨i, hi⟩) with
        | none =>
          rw [hrow] at h
          refine ih (i + 1) reachable ?_ h
          intro k hk hki
          by_cases hlt : k < i
          · exact hproc k hk hlt
          · have hkeq : k = i := by omega
            subst hkeq
            refine ⟨hfin, ?_⟩
            intro s t hd
            unfold deltaRaw at hd
            rw [hrow] at hd
            cases hd
        | some row =>
          rw [hrow] at h
          have hR := isliveRow_ext row reachable
          obtain ⟨ext, hext⟩ := hR
          have hsub : ∀ x ∈ reachable, x ∈ isliveRow row reachable :=
            fun x hx => isliveRow_sub row reachable x hx
          have hmain := ih (i + 1) (isliveRow row reachable) ?_ h
          · intro r hr u t ht
            exact hmain r (hsub r hr) u t ht
          · intro k hk hki
            by_cases hlt : k < reachable.length
            · have hget : (isliveRow row reachable).get ⟨k, hk⟩ =
                  reachable.get ⟨k, hlt⟩ := by
                simp only [List.get_eq_getElem, hext]
                exact List.getElem_append_left hlt
              rw [hget]
              by_cases hkilt : k < i
              · obtain ⟨hf, hsucc⟩ := hproc k hlt hkilt
                exact ⟨hf, fun s t hd => hsub t (hsucc s t hd)⟩
              · have hkeq : k = i := by omega
                subst hkeq
                refine ⟨hfin, ?_⟩
                intro s t hd
                unfold deltaRaw at hd
                rw [hrow] at hd
                exact isliveRow_succ row reachable (s, t) (alookup_mem hd)
            · exfalso
              omega
    · rw [dif_neg hi] at h
      cases h
      have hnofin : ∀ r ∈ reachable, r ∉ M.finals := by
        intro r hr
        obtain ⟨⟨kv, hk⟩, hget⟩ := List.mem_iff_get.mp hr
        have h2 := hproc kv hk (by omega)
        rw [hget] at h2
        exact h2.1
      have hclosed : ∀ r ∈ reachable, ∀ s t, deltaRaw M r s = some t →
          t ∈ reachable := by
        intro r hr s t hd
        obtain ⟨⟨kv, hk⟩, hget⟩ := List.mem_iff_get.mp hr
        have h2 := hproc kv hk (by omega)
        rw [hget] at h2
        exact h2.2 s t hd
      intro r hr u t ht
      exact hnofin t (trek_closed M reachable hclosed u r hr t ht)


theorem isliveF_true_iff (M : Fsm σ) (q : σ)
    (hRowNodup : ∀ p ∈ M.map, (p.2.map Prod.fst).Nodup) :
    isliveF M q = true ↔ ∃ w r, trekRaw M q w = some r ∧ r ∈ M.finals := by
  constructor
  · intro h
    unfold isliveF at h
    cases hgo : isliveGo M ((q :: allSucc M).length + 1) 0 [q] with
    | none => rw [hgo] at h; cases h
    | some b =>
      rw [hgo] at h
      cases b with
      | false => cases h
      | true =>
        refine isliveGo_sound M q hRowNodup _ 0 [q] ?_ hgo
        intro r hr
        rw [List.mem_singleton] at hr
        subst hr
        exact ⟨[], rfl⟩
  · rintro ⟨w, r, hw, hr⟩
    unfold isliveF
    cases hgo : isliveGo M ((q :: allSucc M).length + 1) 0 [q] with
    | none =>
      exact absurd hgo (isliveGo_ne_none M q _ 0 [q] (by simp)
        (by intro x hx; rw [List.mem_singleton] at hx; rw [hx]; exact List.mem_cons_self q _)
        (by simp) (by omega))
    | some b =>
      cases b with
      | true => rfl
      | false =>
        exfalso
        have := isliveGo_complete M _ 0 [q] (by intro k hk hki; omega) hgo
        exact this q (List.mem_singleton_self q) w r hw hr

/-- Membership in the `livestates` set of `fsm.strings`: the state is
among `self.states` and is live. -/
def inLivestates (M : Fsm σ) (t : σ) : Bool :=
  decide (t ∈ M.states) && isliveF M t

/-- State of the `fsm.strings` generator loop: the scan position `i`,
the FIFO of (word, state) pairs, and the words yielded so far. -/
structure GenSt (σ : Type) where
  i : Nat
  queue : List (List Sym × σ)
  ys : List (List Sym)

/-- Children generated while processing one queue entry: for each row
symbol in sorted order, the extended word and the transition target,
kept only when the target is in `livestates`. -/
def stringsChildren (M : Fsm σ) (cw : List Sym) (cs : σ) : List (List Sym × σ) :=
  match alookup M.map cs with
  | none => []
  | some row =>
    (sortSyms (row.map Prod.fst)).filterMap (fun s =>
      match alookup row s with
      | none => none
      | some t => if inLivestates M t then some (cw ++ [s], t) else none)

/-- The initialisation of the `fsm.strings` generator: seed the FIFO
with the initial state when live, and yield the empty word when the
initial state is moreover final. -/
def stringsInit (M : Fsm σ) : GenSt σ :=
  { i := 0
    queue := if inLivestates M M.initial then [([], M.initial)] else []
    ys := if inLivestates M M.initial ∧ M.initial ∈ M.finals then [[]] else [] }

/-- One iteration of the fixed-point loop of `fsm.strings`: process the
entry at position `i`, appending its children to the FIFO and yielding
the final ones. -/
def stringsStep (M : Fsm σ) (g : GenSt σ) : GenSt σ :=
  if h : g.i < g.queue.length then
    { i := g.i + 1
      queue := g.queue ++
        stringsChildren M (g.queue.get ⟨g.i, h⟩).1 (g.queue.get ⟨g.i, h⟩).2
      ys := g.ys ++
        ((stringsChildren M (g.queue.get ⟨g.i, h⟩).1
          (g.queue.get ⟨g.i, h⟩).2).filter
            (fun c => decide (c.2 ∈ M.finals))).map Prod.fst }
  else g

/-- The generator state after `k` iterations of the loop. -/
def stringsIter (M : Fsm σ) : Nat → GenSt σ
  | 0 => stringsInit M
  | k + 1 => stringsStep M (stringsIter M k)

/-- The words yielded by `fsm.strings` within the first `k` loop
iterations, in yield order. -/
def stringsYields (M : Fsm σ) (k : Nat) : List (List Sym) :=
  (stringsIter M k).ys

/-- The loop of `fsm.strings` has terminated by iteration `k`. -/
def stringsDone (M : Fsm σ) (k : Nat) : Prop :=
  (stringsIter M k).queue.length ≤ (stringsIter M k).i

theorem stringsStep_of_done {M : Fsm σ} {g : GenSt σ}
    (h : g.queue.length ≤ g.i) : stringsStep M g = g := by
  unfold stringsStep
  rw [dif_neg (by omega)]

theorem stringsIter_eq_of_done {M : Fsm σ} {k : Nat} (h : stringsDone M k) :
    ∀ m, k ≤ m → stringsIter M m = stringsIter M k := by
  intro m hm
  induction m with
  | zero =>
    have : k = 0 := by omega
    rw [this]
  | succ m ih =>
    by_cases hk : k = m + 1
    · rw [hk]
    · have hkm : k ≤ m := by omega
      rw [stringsIter, ih hkm, stringsStep_of_done h]

theorem stringsStep_ys_ext (M : Fsm σ) (g : GenSt σ) :
    ∃ ext, (stringsStep M g).ys = g.ys ++ ext := by
  unfold stringsStep
  by_cases h : g.i < g.queue.length
  · rw [dif_pos h]
    exact ⟨((stringsChildren M (g.queue.get ⟨g.i, h⟩).1
      (g.queue.get ⟨g.i, h⟩).2).filter
        (fun c => decide (c.2 ∈ M.finals))).map Prod.fst, rfl⟩
  · rw [dif_neg h]
    exact ⟨[], by simp⟩

theorem stringsStep_queue_ext (M : Fsm σ) (g : GenSt σ) :
    ∃ ext, (stringsStep M g).queue = g.queue ++ ext := by
  unfold stringsStep
  by_cases h : g.i < g.queue.length
  · rw [dif_pos h]
    exact ⟨stringsChildren M (g.queue.get ⟨g.i, h⟩).1
      (g.queue.get ⟨g.i, h⟩).2, rfl⟩
  · rw [dif_neg h]
    exact ⟨[], by simp⟩

theorem stringsYields_extend (M : Fsm σ) (k : Nat) :
    ∃ ext, stringsYields M (k + 1) = stringsYields M k ++ ext :=
  stringsStep_ys_ext M (stringsIter M k)

theorem mem_stringsChildren_elim {M : Fsm σ} {cw : List Sym} {cs : σ}
    {c : List Sym × σ} (h : c ∈ stringsChildren M cw cs) :
    ∃ s, c.1 = cw ++ [s] ∧ deltaRaw M cs s = some c.2 ∧
      inLivestates M c.2 = true := by
  unfold stringsChildren at h
  cases hrow : alookup M.map cs with
  | none => rw [hrow] at h; simp at h
  | some row =>
    rw [hrow] at h
    rw [List.mem_filterMap] at h
    obtain ⟨s, _, hs⟩ := h
    cases ht : alookup row s with
    | none => simp only [ht] at hs; cases hs
    | some t =>
      simp only [ht] at hs
      by_cases hl : inLivestates M t
      · rw [if_pos hl] at hs
        cases hs
        exact ⟨s, rfl, by unfold deltaRaw; rw [hrow]; exact ht, hl⟩
      · rw [if_neg hl] at hs
        cases hs

theorem mem_stringsChildren_intro {M : Fsm σ} {cw : List Sym} {cs : σ}
    {s : Sym} {t : σ} (hd : deltaRaw M cs s = some t)
    (hl : inLivestates M t = true) :
    (cw ++ [s], t) ∈ stringsChildren M cw cs := by
  unfold deltaRaw at hd
  cases hrow : alookup M.map cs with
  | none => rw [hrow] at hd; cases hd
  | some row =>
    simp only [hrow] at hd
    unfold stringsChildren
    rw [hrow, List.mem_filterMap]
    refine ⟨s, ?_, ?_⟩
    · rw [sortSyms_mem]
      exact List.mem_map_of_mem Prod.fst (alookup_mem hd)
    · simp only [hd, if_pos hl]

theorem stringsChildren_path (M : Fsm σ) {cw : List Sym} {cs : σ}
    (hpath : trekRaw M M.initial cw = some cs) {c : List Sym × σ}
    (hc : c ∈ stringsChildren M cw cs) :
    trekRaw M M.initial c.1 = some c.2 ∧ inLivestates M c.2 = true := by
  obtain ⟨s, hc1, hd, hl⟩ := mem_stringsChildren_elim hc
  refine ⟨?_, hl⟩
  rw [hc1, trekRaw_append]
  simp only [hpath]
  simp [trekRaw, hd]

theorem pairwise_get_words {μ : Type} {l : List (List Sym × μ)}
    (hs : List.Pairwise wordLt (l.map Prod.fst)) {p j : Nat}
    (hp : p < l.length) (hj : j < l.length) (hpj : p < j) :
    wordLt (l.get ⟨p, hp⟩).1 (l.get ⟨j, hj⟩).1 := by
  have h := List.pairwise_iff_get.mp hs ⟨p, by simpa using hp⟩
    ⟨j, by simpa using hj⟩ (Fin.mk_lt_mk.mpr hpj)
  simpa [List.get_eq_getElem, List.getElem_map] using h

theorem filterMap_words_pairwise {μ : Type} (cw : List Sym)
    (f : Sym → Option (List Sym × μ))
    (hf : ∀ s c, f s = some c → c.1 = cw ++ [s]) :
    ∀ l : List Sym, List.Pairwise symLt l →
      List.Pairwise wordLt ((l.filterMap f).map Prod.fst) := by
  intro l
  induction l with
  | nil => intro _; simp
  | cons s rest ih =>
    intro hp
    rw [List.pairwise_cons] at hp
    obtain ⟨hs, hrest⟩ := hp
    rw [List.filterMap_cons]
    cases hfs : f s with
    | none => simp only [hfs]; exact ih hrest
    | some c =>
      simp only [hfs]
      rw [List.map_cons, List.pairwise_cons]
      refine ⟨?_, ih hrest⟩
      intro y hy
      rw [List.mem_map] at hy
      obtain ⟨c2, hc2, hyc⟩ := hy
      rw [List.mem_filterMap] at hc2
      obtain ⟨s2, hs2, hfs2⟩ := hc2
      rw [← hyc, hf s c hfs, hf s2 c2 hfs2]
      exact wordLt_same_extend cw (hs s2 hs2)

theorem stringsChildren_words_pairwise (M : Fsm σ)
    (hRowNodup : ∀ p ∈ M.map, (p.2.map Prod.fst).Nodup)
    (cw : List Sym) (cs : σ) :
    List.Pairwise wordLt ((stringsChildren M cw cs).map Prod.fst) := by
  unfold stringsChildren
  cases hrow : alookup M.map cs with
  | none => simp
  | some row =>
    refine filterMap_words_pairwise cw _ ?_ _
      (sortSyms_pairwise_lt (hRowNodup _ (alookup_mem hrow)))
    intro s c hc
    cases ht : alookup row s with
    | none => simp only [ht] at hc; cases hc
    | some t =>
      simp only [ht] at hc
      by_cases hl : inLivestates M t
      · rw [if_pos hl] at hc
        cases hc
        rfl
      · rw [if_neg hl] at hc
        cases hc

/-- The loop invariant of the `fsm.strings` generator. -/
structure GenInv (M : Fsm σ) (g : GenSt σ) : Prop where
  hsorted : List.Pairwise wordLt (g.queue.map Prod.fst)
  hshape : ∀ (j : Nat) (hj : j < g.queue.length), g.i < j →
    ∃ (p : Nat) (hp : p < g.queue.length) (s : Sym),
      p < g.i ∧ (g.queue.get ⟨j, hj⟩).1 = (g.queue.get ⟨p, hp⟩).1 ++ [s]
  hys_sub : g.ys.Sublist (g.queue.map Prod.fst)
  hpath : ∀ e ∈ g.queue,
    trekRaw M M.initial e.1 = some e.2 ∧ inLivestates M e.2 = true
  hys_acc : ∀ y ∈ g.ys, ∃ r, trekRaw M M.initial y = some r ∧ r ∈ M.finals
  hseed : inLivestates M M.initial = true → ([], M.initial) ∈ g.queue
  hseedy : inLivestates M M.initial = true → M.initial ∈ M.finals →
    [] ∈ g.ys
  hproc : ∀ (j : Nat) (hj : j < g.queue.length), j < g.i →
    ∀ s t, deltaRaw M (g.queue.get ⟨j, hj⟩).2 s = some t →
      inLivestates M t = true →
      ((g.queue.get ⟨j, hj⟩).1 ++ [s], t) ∈ g.queue ∧
      (t ∈ M.finals → (g.queue.get ⟨j, hj⟩).1 ++ [s] ∈ g.ys)

theorem queue_words_lt_child {M : Fsm σ} {g : GenSt σ} (hg : GenInv M g)
    (hlt : g.i < g.queue.length) (s : Sym) :
    ∀ a ∈ g.queue.map Prod.fst,
      wordLt a ((g.queue.get ⟨g.i, hlt⟩).1 ++ [s]) := by
  intro a ha
  obtain ⟨⟨j, hj⟩, hget⟩ := List.mem_iff_get.mp ha
  have hjq : j < g.queue.length := by simpa using hj
  have haj : a = (g.queue.get ⟨j, hjq⟩).1 := by
    rw [← hget]
    simp [List.get_eq_getElem, List.getElem_map]
  subst haj
  rcases Nat.lt_trichotomy j g.i with hcase | hcase | hcase
  · exact wordLt_trans (pairwise_get_words hg.hsorted hjq hlt hcase)
      (wordLt_append_single _ s)
  · subst hcase
    exact wordLt_append_single _ s
  · obtain ⟨p, hp, t, hpi, hword⟩ := hg.hshape j hjq hcase
    rw [hword]
    exact wordLt_extend (pairwise_get_words hg.hsorted hp hlt hpi) t s

theorem genInv_init (M : Fsm σ) : GenInv M (stringsInit M) := by
  by_cases hl : inLivestates M M.initial = true
  · by_cases hf : M.initial ∈ M.finals
    · refine ⟨?_, ?_, ?_, ?_, ?_, ?_, ?_, ?_⟩ <;>
        simp only [stringsInit, if_pos hl, if_pos (And.intro hl hf)]
      · simp
      · intro j hj hij
        simp at hj
        omega
      · simp
      · intro e he
        simp at he
        subst he
        exact ⟨rfl, hl⟩
      · intro y hy
        simp at hy
        subst hy
        exact ⟨M.initial, rfl, hf⟩
      · intro _
        simp
      · intro _ _
        simp
      · intro j hj hij
        simp at hij
    · refine ⟨?_, ?_, ?_, ?_, ?_, ?_, ?_, ?_⟩ <;>
        simp only [stringsInit, if_pos hl,
          if_neg (show ¬(inLivestates M M.initial = true ∧
            M.initial ∈ M.finals) from fun hc => hf hc.2)]
      · simp
      · intro j hj hij
        simp at hj
        omega
      · simp
      · intro e he
        simp at he
        subst he
        exact ⟨rfl, hl⟩
      · intro y hy
        simp at hy
      · intro _
        simp
      · intro _ hc
        exact absurd hc hf
      · intro j hj hij
        simp at hij
  · refine ⟨?_, ?_, ?_, ?_, ?_, ?_, ?_, ?_⟩ <;>
      simp only [stringsInit, if_neg hl,
        if_neg (show ¬(inLivestates M M.initial = true ∧
          M.initial ∈ M.finals) from fun hc => hl hc.1)]
    · simp
    · intro j hj hij
      simp at hj
    · simp
    · intro e he
      simp at he
    · intro y hy
      simp at hy
    · intro hc
      exact absurd hc hl
    · intro hc
      exact absurd hc hl
    · intro j hj hij
      simp at hj

theorem genInv_extend (M : Fsm σ)
    (hRowNodup : ∀ p ∈ M.map, (p.2.map Prod.fst).Nodup)
    {g : GenSt σ} (hg : GenInv M g) (hlt : g.i < g.queue.length) :
    GenInv M
      { i := g.i + 1
        queue := g.queue ++
          stringsChildren M (g.queue.get ⟨g.i, hlt⟩).1
            (g.queue.get ⟨g.i, hlt⟩).2
        ys := g.ys ++
          ((stringsChildren M (g.queue.get ⟨g.i, hlt⟩).1
            (g.queue.get ⟨g.i, hlt⟩).2).filter
              (fun c => decide (c.2 ∈ M.finals))).map Prod.fst } := by
  have hpe := hg.hpath _ (List.get_mem g.queue g.i hlt)
  set C := stringsChildren M (g.queue.get ⟨g.i, hlt⟩).1
    (g.queue.get ⟨g.i, hlt⟩).2 with hCdef
  refine ⟨?_, ?_, ?_, ?_, ?_, ?_, ?_, ?_⟩
  · dsimp only
    rw [List.map_append, List.pairwise_append]
    refine ⟨hg.hsorted, ?_, ?_⟩
    · rw [hCdef]
      exact stringsChildren_words_pairwise M hRowNodup _ _
    · intro a ha b hb
      rw [List.mem_map] at hb
      obtain ⟨c, hc, hbc⟩ := hb
      rw [hCdef] at hc
      obtain ⟨s, hc1, -, -⟩ := mem_stringsChildren_elim hc
      rw [← hbc, hc1]
      exact queue_words_lt_child hg hlt s a ha
  · dsimp only
    intro j hj hij
    by_cases hjold : j < g.queue.length
    · obtain ⟨p, hp, s, hpi, hword⟩ := hg.hshape j hjold (by omega)
      have hp2 : p < (g.queue ++ C).length := by simp; omega
      refine ⟨p, hp2, s, by omega, ?_⟩
      rw [get_append_ext g.queue C j hjold hj,
        get_append_ext g.queue C p hp hp2]
      exact hword
    · have hjlen : g.queue.length ≤ j := by omega
      have hj2 : j - g.queue.length < C.length := by
        simp at hj
        omega
      have hcget : (g.queue ++ C).get ⟨j, hj⟩ =
          C.get ⟨j - g.queue.length, hj2⟩ := by
        simp only [List.get_eq_getElem]
        exact List.getElem_append_right hjlen
      have hgm : C.get ⟨j - g.queue.length, hj2⟩ ∈
          stringsChildren M (g.queue.get ⟨g.i, hlt⟩).1
            (g.queue.get ⟨g.i, hlt⟩).2 := by
        rw [← hCdef]
        exact C.get_mem (j - g.queue.length) hj2
      obtain ⟨s, hc1, -, -⟩ := mem_stringsChildren_elim hgm
      have hilen : g.i < (g.queue ++ C).length := by simp; omega
      refine ⟨g.i, hilen, s, by omega, ?_⟩
      rw [hcget, get_append_ext g.queue C g.i hlt hilen]
      exact hc1
  · dsimp only
    rw [List.map_append]
    exact List.Sublist.append hg.hys_sub ((List.filter_sublist C).map Prod.fst)
  · dsimp only
    intro e he
    rcases List.mem_append.mp he with h | h
    · exact hg.hpath e h
    · rw [hCdef] at h
      exact stringsChildren_path M hpe.1 h
  · dsimp only
    intro y hy
    rcases List.mem_append.mp hy with h | h
    · exact hg.hys_acc y h
    · rw [List.mem_map] at h
      obtain ⟨c, hcf, hyc⟩ := h
      rw [List.mem_filter] at hcf
      obtain ⟨hcC, hfin⟩ := hcf
      rw [hCdef] at hcC
      have hp2 := stringsChildren_path M hpe.1 hcC
      exact ⟨c.2, by rw [← hyc]; exact hp2.1, by simpa using hfin⟩
  · dsimp only
    intro h
    exact List.mem_append.mpr (Or.inl (hg.hseed h))
  · dsimp only
    intro h hf
    exact List.mem_append.mpr (Or.inl (hg.hseedy h hf))
  · dsimp only
    intro j hj hij s t hd hlive
    by_cases hjold : j < g.i
    · have hjq : j < g.queue.length := by omega
      rw [get_append_ext g.queue C j hjq hj] at hd ⊢
      obtain ⟨hmem, hyld⟩ := hg.hproc j hjq hjold s t hd hlive
      exact ⟨List.mem_append.mpr (Or.inl hmem),
        fun hf => List.mem_append.mpr (Or.inl (hyld hf))⟩
    · have hje : j = g.i := by omega
      subst hje
      rw [get_append_ext g.queue C g.i hlt hj] at hd ⊢
      refine ⟨List.mem_append.mpr (Or.inr
        (by rw [hCdef]; exact mem_stringsChildren_intro hd hlive)), ?_⟩
      intro hf
      refine List.mem_append.mpr (Or.inr ?_)
      rw [List.mem_map]
      refine ⟨((g.queue.get ⟨g.i, hlt⟩).1 ++ [s], t), ?_, rfl⟩
      rw [List.mem_filter]
      refine ⟨by rw [hCdef]; exact mem_stringsChildren_intro hd hlive,
        by simpa using hf⟩

theorem genInv_step (M : Fsm σ)
    (hRowNodup : ∀ p ∈ M.map, (p.2.map Prod.fst).Nodup)
    {g : GenSt σ} (hg : GenInv M g) : GenInv M (stringsStep M g) := by
  unfold stringsStep
  by_cases hlt : g.i < g.queue.length
  · rw [dif_pos hlt]
    exact genInv_extend M hRowNodup hg hlt
  · rw [dif_neg hlt]
    exact hg

theorem genInv_iter (M : Fsm σ)
    (hRowNodup : ∀ p ∈ M.map, (p.2.map Prod.fst).Nodup) :
    ∀ k, GenInv M (stringsIter M k)
  | 0 => genInv_init M
  | k + 1 => genInv_step M hRowNodup (genInv_iter M hRowNodup k)

theorem effW_id (alphabet : List Sym) :
    ∀ (w : List Sym), (∀ s ∈ w, s ∈ alphabet) → effW alphabet w = w := by
  intro w
  induction w with
  | nil => intro _; rfl
  | cons s rest ih =>
    intro h
    have hs : s ∈ alphabet := h s (List.mem_cons_self s rest)
    unfold effW at ih ⊢
    rw [List.map_cons, ih (fun x hx => h x (List.mem_cons_of_mem s hx))]
    unfold effSym
    rw [if_neg (fun hc => hc.2 hs)]

theorem effW_id_of_no_ae (alphabet : List Sym)
    (hae : Sym.anythingElse ∉ alphabet) : ∀ (w : List Sym),
    effW alphabet w = w := by
  intro w
  induction w with
  | nil => rfl
  | cons s rest ih =>
    unfold effW at ih ⊢
    rw [List.map_cons, ih]
    unfold effSym
    rw [if_neg (fun hc => hae hc.1)]

theorem accepts_of_trek_final (M : Fsm σ)
    (hRowSyms : ∀ p ∈ M.map, ∀ e ∈ p.2, e.1 ∈ M.alphabet)
    {w : List Sym} {r : σ} (ht : trekRaw M M.initial w = some r)
    (hr : r ∈ M.finals) : M.accepts w = some true := by
  have hall := trekRaw_all_mem M hRowSyms w M.initial r ht
  rw [List.all_eq_true] at hall
  rw [accepts_true_iff, effW_id _ _ (fun s hs => by simpa using hall s hs)]
  unfold acceptsRawB
  rw [ht]
  simp [hr]

theorem effSym_out (alphabet : List Sym) {s : Sym} (hs : s ∉ alphabet)
    (h2 : Sym.anythingElse ∈ alphabet) :
    effSym alphabet s = Sym.anythingElse := by
  unfold effSym
  rw [if_pos ⟨h2, hs⟩]

/-- An index bound on the concrete symbols of a list. -/
def symUB : List Sym → Nat
  | [] => 0
  | Sym.c n :: rest => max (n + 1) (symUB rest)
  | Sym.anythingElse :: rest => symUB rest

theorem symUB_spec : ∀ (l : List Sym) (n : Nat), symUB l ≤ n → Sym.c n ∉ l := by
  intro l
  induction l with
  | nil => intro n _; exact List.not_mem_nil _
  | cons s rest ih =>
    intro n h hmem
    cases s with
    | c m =>
      simp only [symUB, Nat.max_le] at h
      rcases List.mem_cons.mp hmem with heq | hmem2
      · cases heq
        omega
      · exact ih n h.2 hmem2
    | anythingElse =>
      simp only [symUB] at h
      rcases List.mem_cons.mp hmem with heq | hmem2
      · cases heq
      · exact ih n h hmem2

theorem accepts_swap_out (M : Fsm σ)
    (hRowSyms : ∀ p ∈ M.map, ∀ e ∈ p.2, e.1 ∈ M.alphabet)
    {u v : List Sym} {s : Sym} (hs : s ∉ M.alphabet)
    (hacc : M.accepts (u ++ s :: v) = some true) :
    ∀ n, symUB M.alphabet ≤ n → M.accepts (u ++ Sym.c n :: v) = some true := by
  intro n hn
  by_cases hae : Sym.anythingElse ∈ M.alphabet
  · rw [accepts_true_iff] at hacc ⊢
    have heq : effW M.alphabet (u ++ Sym.c n :: v) =
        effW M.alphabet (u ++ s :: v) := by
      unfold effW
      simp only [List.map_append, List.map_cons]
      rw [effSym_out _ hs hae, effSym_out _ (symUB_spec _ n hn) hae]
    rw [heq]
    exact hacc
  · exfalso
    rw [accepts_true_iff, effW_id_of_no_ae _ hae] at hacc
    obtain ⟨r, ht, -⟩ := acceptsRawB_true_trek M _ _ hacc
    have hall := trekRaw_all_mem M hRowSyms _ _ _ ht
    rw [List.all_eq_true] at hall
    have hsmem : s ∈ u ++ s :: v :=
      List.mem_append_right u (List.mem_cons_self s v)
    exact hs (by simpa using hall s hsmem)

theorem accepted_syms_in_alpha (M : Fsm σ)
    (hRowSyms : ∀ p ∈ M.map, ∀ e ∈ p.2, e.1 ∈ M.alphabet)
    (L : List (List Sym)) (hL : ∀ w, M.accepts w = some true → w ∈ L) :
    ∀ w, M.accepts w = some true → ∀ s ∈ w, s ∈ M.alphabet := by
  intro w hacc s hsw
  by_contra hs
  obtain ⟨u, v, huv⟩ := List.append_of_mem hsw
  subst huv
  have hall : ∀ n, symUB M.alphabet ≤ n → (u ++ Sym.c n :: v) ∈ L :=
    fun n hn => hL _ (accepts_swap_out M hRowSyms hs hacc n hn)
  have hinj : Function.Injective
      (fun k : Nat => u ++ Sym.c (symUB M.alphabet + k) :: v) := by
    intro a b hab
    simp only at hab
    have h2 := List.append_cancel_left hab
    simp only [List.cons.injEq, Sym.c.injEq] at h2
    omega
  have hnd : ((List.range (L.length + 1)).map
      (fun k => u ++ Sym.c (symUB M.alphabet + k) :: v)).Nodup :=
    (List.nodup_range _).map hinj
  have hsub : ∀ x ∈ (List.range (L.length + 1)).map
      (fun k => u ++ Sym.c (symUB M.alphabet + k) :: v), x ∈ L := by
    intro x hx
    rw [List.mem_map] at hx
    obtain ⟨k, -, hk⟩ := hx
    rw [← hk]
    exact hall (symUB M.alphabet + k) (by omega)
  have hlen := nodup_subset_length_le hnd hsub
  simp at hlen

/-- All prefixes of a word. -/
def allPrefixes : List Sym → List (List Sym)
  | [] => [[]]
  | s :: rest => [] :: (allPrefixes rest).map (List.cons s)

theorem nil_mem_allPrefixes : ∀ v : List Sym, [] ∈ allPrefixes v
  | [] => List.mem_singleton_self []
  | _ :: _ => List.mem_cons_self [] _

theorem mem_allPrefixes : ∀ (w u : List Sym), w ∈ allPrefixes (w ++ u) := by
  intro w
  induction w with
  | nil => intro u; exact nil_mem_allPrefixes u
  | cons s rest ih =>
    intro u
    simp only [List.cons_append, allPrefixes]
    exact List.mem_cons_of_mem _ (List.mem_map_of_mem (List.cons s) (ih u))

theorem queue_word_bound (M : Fsm σ)
    (hRowSyms : ∀ p ∈ M.map, ∀ e ∈ p.2, e.1 ∈ M.alphabet)
    (hRowNodup : ∀ p ∈ M.map, (p.2.map Prod.fst).Nodup)
    (L : List (List Sym)) (hL : ∀ w, M.accepts w = some true → w ∈ L)
    {g : GenSt σ} (hg : GenInv M g) :
    ∀ e ∈ g.queue, e.1 ∈ (L.map allPrefixes).flatten := by
  intro e he
  obtain ⟨htrek, hlive⟩ := hg.hpath e he
  have hl2 : isliveF M e.2 = true := by
    unfold inLivestates at hlive
    exact (Bool.and_eq_true _ _).mp hlive |>.2
  obtain ⟨u2, r, hu2, hr⟩ := (isliveF_true_iff M e.2 hRowNodup).mp hl2
  have htrek2 : trekRaw M M.initial (e.1 ++ u2) = some r := by
    rw [trekRaw_append]
    simp only [htrek]
    exact hu2
  have hmem := hL _ (accepts_of_trek_final M hRowSyms htrek2 hr)
  rw [List.mem_flatten]
  exact ⟨allPrefixes (e.1 ++ u2), List.mem_map_of_mem allPrefixes hmem,
    mem_allPrefixes e.1 u2⟩

theorem queue_len_bound (M : Fsm σ)
    (hRowSyms : ∀ p ∈ M.map, ∀ e ∈ p.2, e.1 ∈ M.alphabet)
    (hRowNodup : ∀ p ∈ M.map, (p.2.map Prod.fst).Nodup)
    (L : List (List Sym)) (hL : ∀ w, M.accepts w = some true → w ∈ L)
    {g : GenSt σ} (hg : GenInv M g) :
    g.queue.length ≤ ((L.map allPrefixes).flatten).length := by
  have hnd : (g.queue.map Prod.fst).Nodup :=
    List.Pairwise.imp (fun h => wordLt_ne h) hg.hsorted
  have hsub : ∀ x ∈ g.queue.map Prod.fst, x ∈ (L.map allPrefixes).flatten := by
    intro x hx
    rw [List.mem_map] at hx
    obtain ⟨e, he, hex⟩ := hx
    rw [← hex]
    exact queue_word_bound M hRowSyms hRowNodup L hL hg e he
  have h2 := nodup_subset_length_le hnd hsub
  simpa using h2

theorem stringsIter_i_succ (M : Fsm σ) (k : Nat)
    (h : ¬ stringsDone M k) :
    (stringsIter M (k + 1)).i = (stringsIter M k).i + 1 := by
  unfold stringsDone at h
  show (stringsStep M (stringsIter M k)).i = (stringsIter M k).i + 1
  unfold stringsStep
  rw [dif_pos (by omega)]

theorem notdone_i (M : Fsm σ) :
    ∀ k, (∀ m, m < k → ¬ stringsDone M m) → (stringsIter M k).i = k := by
  intro k
  induction k with
  | zero => intro _; rfl
  | succ k ih =>
    intro h
    have h1 := ih (fun m hm => h m (by omega))
    have h2 := stringsIter_i_succ M k (h k (by omega))
    omega

theorem strings_terminates (M : Fsm σ)
    (hRowSyms : ∀ p ∈ M.map, ∀ e ∈ p.2, e.1 ∈ M.alphabet)
    (hRowNodup : ∀ p ∈ M.map, (p.2.map Prod.fst).Nodup)
    (L : List (List Sym)) (hL : ∀ w, M.accepts w = some true → w ∈ L) :
    ∃ k, stringsDone M k := by
  by_contra hc
  push_neg at hc
  have h1 := notdone_i M (((L.map allPrefixes).flatten).length + 1)
    (fun m _ => hc m)
  have h2 := queue_len_bound M hRowSyms hRowNodup L hL
    (genInv_iter M hRowNodup (((L.map allPrefixes).flatten).length + 1))
  have h3 := hc (((L.map allPrefixes).flatten).length + 1)
  unfold stringsDone at h3
  omega

theorem trek_concat_split (M : Fsm σ) {u : List Sym} {s : Sym} {q : σ}
    (h : trekRaw M M.initial (u ++ [s]) = some q) :
    ∃ q2, trekRaw M M.initial u = some q2 ∧ deltaRaw M q2 s = some q := by
  rw [trekRaw_append] at h
  cases hq2 : trekRaw M M.initial u with
  | none => rw [hq2] at h; cases h
  | some q2 =>
    rw [hq2] at h
    refine ⟨q2, rfl, ?_⟩
    simp only [trekRaw] at h
    cases hd : deltaRaw M q2 s with
    | none => rw [hd] at h; cases h
    | some t =>
      rw [hd] at h
      simp only [trekRaw] at h
      cases h
      rfl

theorem delta_target_in_states (M : Fsm σ)
    (hTgt : ∀ p ∈ M.map, ∀ e ∈ p.2, e.2 ∈ M.states)
    {q t : σ} {s : Sym} (hd : deltaRaw M q s = some t) : t ∈ M.states := by
  unfold deltaRaw at hd
  cases hrow : alookup M.map q with
  | none => rw [hrow] at hd; cases hd
  | some row =>
    rw [hrow] at hd
    exact hTgt _ (alookup_mem hrow) (s, t) (alookup_mem hd)

theorem queue_contains_prefixes (M : Fsm σ)
    (hRowNodup : ∀ p ∈ M.map, (p.2.map Prod.fst).Nodup)
    (hInit : M.initial ∈ M.states)
    (hTgt : ∀ p ∈ M.map, ∀ e ∈ p.2, e.2 ∈ M.states)
    {k : Nat} (hdone : stringsDone M k) :
    ∀ (u v : List Sym) (q r : σ), trekRaw M M.initial u = some q →
      trekRaw M q v = some r → r ∈ M.finals →
      (u, q) ∈ (stringsIter M k).queue := by
  have hinv := genInv_iter M hRowNodup k
  intro u
  induction u using List.reverseRecOn with
  | nil =>
    intro v q r h1 h2 hr
    simp only [trekRaw] at h1
    cases h1
    apply hinv.hseed
    unfold inLivestates
    rw [Bool.and_eq_true]
    exact ⟨by simpa using hInit,
      (isliveF_true_iff M _ hRowNodup).mpr ⟨v, r, h2, hr⟩⟩
  | append_singleton u2 s ih =>
    intro v q r h1 h2 hr
    obtain ⟨q2, hq2, hd⟩ := trek_concat_split M h1
    have htv : trekRaw M q2 (s :: v) = some r := by
      simp only [trekRaw, hd]
      exact h2
    have hq2mem := ih (s :: v) q2 r hq2 htv hr
    obtain ⟨⟨j, hj⟩, hget⟩ := List.mem_iff_get.mp hq2mem
    have hj2 : j < (stringsIter M k).queue.length := by simpa using hj
    have hget2 : (stringsIter M k).queue.get ⟨j, hj2⟩ = (u2, q2) := hget
    have hlive : inLivestates M q = true := by
      unfold inLivestates
      rw [Bool.and_eq_true]
      refine ⟨by simpa using delta_target_in_states M hTgt hd, ?_⟩
      exact (isliveF_true_iff M _ hRowNodup).mpr ⟨v, r, h2, hr⟩
    have hdone2 : (stringsIter M k).queue.length ≤ (stringsIter M k).i := hdone
    have hproc := hinv.hproc j hj2 (by omega) s q
      (by rw [hget2]; exact hd) hlive
    rw [hget2] at hproc
    exact hproc.1

theorem ys_contains_accepted (M : Fsm σ)
    (hRowNodup : ∀ p ∈ M.map, (p.2.map Prod.fst).Nodup)
    (hInit : M.initial ∈ M.states)
    (hTgt : ∀ p ∈ M.map, ∀ e ∈ p.2, e.2 ∈ M.states)
    {k : Nat} (hdone : stringsDone M k) :
    ∀ (w : List Sym) (r : σ), trekRaw M M.initial w = some r →
      r ∈ M.finals → w ∈ (stringsIter M k).ys := by
  have hinv := genInv_iter M hRowNodup k
  intro w r h1 hr
  rcases List.eq_nil_or_concat w with hw | ⟨u, s, hw⟩
  · subst hw
    simp only [trekRaw] at h1
    cases h1
    apply hinv.hseedy _ hr
    unfold inLivestates
    rw [Bool.and_eq_true]
    exact ⟨by simpa using hInit,
      (isliveF_true_iff M _ hRowNodup).mpr ⟨[], M.initial, rfl, hr⟩⟩
  · rw [List.concat_eq_append] at hw
    subst hw
    obtain ⟨q2, hq2, hd⟩ := trek_concat_split M h1
    have hq2mem := queue_contains_prefixes M hRowNodup hInit hTgt hdone
      u [s] q2 r hq2 (by simp [trekRaw, hd]) hr
    obtain ⟨⟨j, hj⟩, hget⟩ := List.mem_iff_get.mp hq2mem
    have hj2 : j < (stringsIter M k).queue.length := by simpa using hj
    have hget2 : (stringsIter M k).queue.get ⟨j, hj2⟩ = (u, q2) := hget
    have hlive : inLivestates M r = true := by
      unfold inLivestates
      rw [Bool.and_eq_true]
      exact ⟨by simpa using delta_target_in_states M hTgt hd,
        (isliveF_true_iff M _ hRowNodup).mpr ⟨[], r, rfl, hr⟩⟩
    have hdone2 : (stringsIter M k).queue.length ≤ (stringsIter M k).i := hdone
    have hproc := hinv.hproc j hj2 (by omega) s r
      (by rw [hget2]; exact hd) hlive
    rw [hget2] at hproc
    exact hproc.2 hr

/-- C4: for every validated DFA (initial state and transition targets
among the declared states) whose transition rows have no duplicate
symbols and mention only alphabet symbols, the sequence produced by
`fsm.strings` is strictly increasing in the length-then-lexicographic
order with ANY_ELSE last (and is cumulative across loop iterations);
every word it yields is accepted; and when the DFA accepts only
finitely many words (all of them within some list `L`), the loop
terminates having yielded exactly the accepted words. -/
theorem C4_strings_enumeration (M : Fsm σ)
    (hRowSyms : ∀ p ∈ M.map, ∀ e ∈ p.2, e.1 ∈ M.alphabet)
    (hRowNodup : ∀ p ∈ M.map, (p.2.map Prod.fst).Nodup)
    (hInit : M.initial ∈ M.states)
    (hTgt : ∀ p ∈ M.map, ∀ e ∈ p.2, e.2 ∈ M.states) :
    (∀ k, List.Pairwise wordLt (stringsYields M k) ∧
      ∃ ext, stringsYields M (k + 1) = stringsYields M k ++ ext) ∧
    (∀ k, ∀ w ∈ stringsYields M k, M.accepts w = some true) ∧
    (∀ L : List (List Sym), (∀ w, M.accepts w = some true → w ∈ L) →
      ∃ k, stringsDone M k ∧
        (∀ m, k ≤ m → stringsYields M m = stringsYields M k) ∧
        (∀ w, M.accepts w = some true ↔ w ∈ stringsYields M k)) := by
  refine ⟨?_, ?_, ?_⟩
  · intro k
    have hinv := genInv_iter M hRowNodup k
    exact ⟨hinv.hsorted.sublist hinv.hys_sub, stringsYields_extend M k⟩
  · intro k w hw
    have hinv := genInv_iter M hRowNodup k
    obtain ⟨r, ht, hr⟩ := hinv.hys_acc w hw
    exact accepts_of_trek_final M hRowSyms ht hr
  · intro L hL
    obtain ⟨k, hk⟩ := strings_terminates M hRowSyms hRowNodup L hL
    refine ⟨k, hk, ?_, ?_⟩
    · intro m hm
      unfold stringsYields
      rw [stringsIter_eq_of_done hk m hm]
    · intro w
      constructor
      · intro hacc
        have halpha := accepted_syms_in_alpha M hRowSyms L hL w hacc
        rw [accepts_true_iff, effW_id _ _ halpha] at hacc
        obtain ⟨r, ht, hr⟩ := acceptsRawB_true_trek M _ _ hacc
        exact ys_contains_accepted M hRowNodup hInit hTgt hk w r ht hr
      · intro hw
        have hinv := genInv_iter M hRowNodup k
        obtain ⟨r, ht, hr⟩ := hinv.hys_acc w hw
        exact accepts_of_trek_final M hRowSyms ht hr

/-- The DFA used to refute the original C4 claim: its single transition
is labelled with the symbol `c 5`, which is not in the declared alphabet
`[ANY_ELSE]`. -/
def A4 : Fsm Nat :=
  ⟨[Sym.anythingElse], [0, 1], 0, [1], [(0, [(Sym.c 5, 1)]), (1, [])]⟩

/-- C4 counterexample: on `A4` the generator of `fsm.strings` terminates
having yielded exactly the word `[c 5]`, yet `accepts` rejects that word
(it substitutes ANY_ELSE for the out-of-alphabet symbol `c 5` and finds
no ANY_ELSE transition), refuting the claim that every yielded word is
accepted. -/
theorem C4_counterexample :
    stringsYields A4 2 = [[Sym.c 5]] ∧ stringsDone A4 2 ∧
      Fsm.accepts A4 [Sym.c 5] = some false :=
  ⟨by decide, by unfold stringsDone; decide, by decide⟩

/-- The validated DFA used to witness C4: empty transition map and a
final initial state, accepting exactly the empty word. -/
def A4w : Fsm Nat := ⟨[], [0], 0, [0], []⟩

theorem A4w_accepts_only_nil :
    ∀ w, Fsm.accepts A4w w = some true → w ∈ [([] : List Sym)] := by
  intro w hw
  cases w with
  | nil => exact List.mem_singleton_self _
  | cons s rest =>
    exfalso
    simp [Fsm.accepts, acceptsFrom, A4w, alookup] at hw

/-- C4 witness: the enumeration theorem applied to the concrete DFA
`A4w`, whose hypotheses hold by computation and whose language is
exactly the empty word. -/
theorem C4_strings_enumeration_witness :
    (∀ k, List.Pairwise wordLt (stringsYields A4w k) ∧
      ∃ ext, stringsYields A4w (k + 1) = stringsYields A4w k ++ ext) ∧
    (∀ k, ∀ w ∈ stringsYields A4w k, Fsm.accepts A4w w = some true) ∧
    (∃ k, stringsDone A4w k ∧
      (∀ m, k ≤ m → stringsYields A4w m = stringsYields A4w k) ∧
      (∀ w, Fsm.accepts A4w w = some true ↔ w ∈ stringsYields A4w k)) := by
  have h := C4_strings_enumeration A4w (by decide) (by decide) (by decide)
    (by decide)
  exact ⟨h.1, h.2.1, h.2.2 [[]] A4w_accepts_only_nil⟩
end Greenery
